import Mathlib

/-!
Shallow embedding of `src/bgp-router.py` (a simplified BGP route server).

Python strings are modelled as `List Char` (`PyStr`); Python string
comparison (`<`, `>`) is lexicographic on characters, which coincides with
the core `List.lt` order on `List Char`.  Python `list.remove`, which
raises `ValueError` when the element is absent, is modelled in an
`Except PyErr` monad.  The recursion of `coalesce` and the
iterate-while-appending loop of `handle_withdraw_msg` are modelled with
explicit fuel; running out of fuel is the distinct error `PyErr.outOfFuel`,
so a `ValueError` crash is observable as `PyErr.valueError`.
-/

deriving instance DecidableEq for Except

namespace BgpRouter

/-- Python strings as character lists. -/
abbrev PyStr := List Char

/-- `int(s)` for a decimal digit string (the only use in the router). -/
def pyInt (s : PyStr) : Nat :=
  s.foldl (fun n c => n * 10 + (c.toNat - '0'.toNat)) 0

/-- `str.split(sep)` helper: accumulates the current segment (reversed). -/
def pySplitAux (sep : Char) : PyStr → PyStr → List PyStr
  | cur, [] => [cur.reverse]
  | cur, c :: rest =>
    if c = sep then cur.reverse :: pySplitAux sep [] rest
    else pySplitAux sep (c :: cur) rest

/-- Python `s.split(sep)` for a single-character separator. -/
def pySplit (sep : Char) (s : PyStr) : List PyStr := pySplitAux sep [] s

/-- `'{0:08b}'.format(n)`: binary digits of `n`, left-padded with `'0'` to
width 8. -/
def octBin (n : Nat) : PyStr :=
  let s := Nat.toDigits 2 n
  List.replicate (8 - s.length) '0' ++ s

/-- `str(n)` for a natural number. -/
def natStr (n : Nat) : PyStr := Nat.toDigits 10 n

/-- `str(n)` for a Python integer. -/
def intStr (n : Int) : PyStr :=
  if n < 0 then '-' :: natStr n.natAbs else natStr n.toNat

/-- Python slice `s[0:j]` (supports a negative upper bound). -/
def pySliceTo (s : PyStr) (j : Int) : PyStr :=
  if j < 0 then s.take ((s.length : Int) + j).toNat else s.take j.toNat

/-- Python index `s[j]` (supports a negative index; out-of-range yields a
placeholder, which the router never hits on well-formed data). -/
def pyIdx (s : PyStr) (j : Int) : Char :=
  if j < 0 then s.getD ((s.length : Int) + j).toNat ' ' else s.getD j.toNat ' '

/-- `Router.ip_to_binary_string`: concatenation of the 8-bit binary forms
of the dot-separated segments. -/
def ip_to_binary_string (ip : PyStr) : PyStr :=
  ((pySplit '.' ip).map (fun seg => octBin (pyInt seg))).flatten

/-- `Router.get_netmask_length`: the count of `'1'` characters in the
binary form of the netmask (no contiguity check). -/
def get_netmask_length (netmask : PyStr) : Nat :=
  (ip_to_binary_string netmask).count '1'

/-- One iteration of the loop in `Router.netmask_with_length`: returns the
segment value and the remaining length. -/
def nmSegStep (l : Int) : Int × Int :=
  if l < 8 then (2 ^ 8 - 2 ^ (8 - l).toNat, 0) else (255, l - 8)

/-- `Router.netmask_with_length`: dotted netmask for a given length. -/
def netmask_with_length (netmask_length : Int) : PyStr :=
  let p0 := nmSegStep netmask_length
  let p1 := nmSegStep p0.2
  let p2 := nmSegStep p1.2
  let p3 := nmSegStep p2.2
  intStr p0.1 ++ '.' :: intStr p1.1 ++ '.' :: intStr p2.1 ++ '.' :: intStr p3.1

/-- `Router.our_addr`: the neighbor's address with the last octet set
to 1. -/
def our_addr (dst : PyStr) : PyStr :=
  let quads := ((pySplit '.' dst).map pyInt).set 3 1
  natStr (quads.getD 0 0) ++ '.' :: natStr (quads.getD 1 0) ++
    '.' :: natStr (quads.getD 2 0) ++ '.' :: natStr (quads.getD 3 0)

/-- The non-child fields of a route record (the dict keys other than
`child0`/`child1`). -/
structure RouteAttrs where
  network : PyStr
  netmask : PyStr
  peer : PyStr
  localpref : Nat
  selfOrigin : Bool
  ASPath : List Nat
  origin : PyStr
deriving DecidableEq, Repr

/-- A route record: either a leaf (`child0` and `child1` both `None`) or an
aggregate holding the two records it combined.  The router only ever
creates records with both children absent or both present. -/
inductive RouteRec where
  | leaf (attrs : RouteAttrs)
  | node (attrs : RouteAttrs) (c0 c1 : RouteRec)
deriving DecidableEq, Repr

namespace RouteRec

def attrs : RouteRec → RouteAttrs
  | .leaf a => a
  | .node a _ _ => a

def network (r : RouteRec) : PyStr := r.attrs.network
def netmask (r : RouteRec) : PyStr := r.attrs.netmask
def peer (r : RouteRec) : PyStr := r.attrs.peer
def localpref (r : RouteRec) : Nat := r.attrs.localpref
def selfOrigin (r : RouteRec) : Bool := r.attrs.selfOrigin
def ASPath (r : RouteRec) : List Nat := r.attrs.ASPath
def origin (r : RouteRec) : PyStr := r.attrs.origin

/-- The leaf attribute records of a route tree. -/
def leaves : RouteRec → List RouteAttrs
  | .leaf a => [a]
  | .node _ c0 c1 => c0.leaves ++ c1.leaves

/-- All subtrees of a route tree (itself included). -/
def subtrees : RouteRec → List RouteRec
  | .leaf a => [.leaf a]
  | .node a c0 c1 => .node a c0 c1 :: (c0.subtrees ++ c1.subtrees)

end RouteRec

/-- `Router.aggregate_routes`: merge two routes when the attributes agree
and, at prefix length `L = get_netmask_length`, the first `L-1` network
bits agree while bit `L-1` differs.  The Python `>` on `network` is
lexicographic string comparison. -/
def aggregate_routes (route1 route2 : RouteRec) : Option RouteRec :=
  if route1.netmask ≠ route2.netmask ∨ route1.localpref ≠ route2.localpref
      ∨ route1.selfOrigin ≠ route2.selfOrigin ∨ route1.ASPath ≠ route2.ASPath
      ∨ route1.origin ≠ route2.origin then
    none
  else
    let netmask_length : Int := (get_netmask_length route1.netmask : Int)
    let b1 := ip_to_binary_string route1.network
    let b2 := ip_to_binary_string route2.network
    if pySliceTo b1 (netmask_length - 1) ≠ pySliceTo b2 (netmask_length - 1)
        ∨ pyIdx b1 (netmask_length - 1) = pyIdx b2 (netmask_length - 1) then
      none
    else if route2.network < route1.network then
      some (.node { route1.attrs with
              network := route2.network
              netmask := netmask_with_length (netmask_length - 1) }
            route2 route1)
    else
      some (.node { route1.attrs with
              netmask := netmask_with_length (netmask_length - 1) }
            route1 route2)

/-- Failure modes of the Python code as modelled: an uncaught `ValueError`
from `list.remove`, or fuel exhaustion of the model (never hit by the
actual terminating runs we evaluate). -/
inductive PyErr where
  | valueError
  | outOfFuel
deriving DecidableEq, Repr

/-- Python `list.remove`: drop the first occurrence, or raise. -/
def py_remove (l : List RouteRec) (x : RouteRec) : Except PyErr (List RouteRec) :=
  match l with
  | [] => .error .valueError
  | y :: ys =>
    if y = x then .ok ys
    else do
      let ys' ← py_remove ys x
      pure (y :: ys')

/-- The aggregable pairs collected by one pass of `Router.coalesce`
(`i < j` traversal order), each with its aggregate. -/
def coalesce_pairs : List RouteRec → List (RouteRec × RouteRec × RouteRec)
  | [] => []
  | r :: rest =>
    (rest.filterMap (fun r2 => (aggregate_routes r r2).map (fun ag => (r, r2, ag))))
      ++ coalesce_pairs rest

/-- The removal/append phase of `Router.coalesce`: for each collected pair,
remove both members (first occurrences; `ValueError` if absent) and append
the aggregate. -/
def apply_aggregates : List (RouteRec × RouteRec × RouteRec) → List RouteRec →
    Except PyErr (List RouteRec)
  | [], routes => .ok routes
  | (r1, r2, ag) :: rest, routes => do
    let routes1 ← py_remove routes r1
    let routes2 ← py_remove routes1 r2
    apply_aggregates rest (routes2 ++ [ag])

/-- `Router.coalesce`, with explicit fuel for the tail recursion. -/
def coalesce_fuel : Nat → List RouteRec → Except PyErr (List RouteRec)
  | 0, _ => .error .outOfFuel
  | fuel + 1, routes =>
    let prs := coalesce_pairs routes
    if prs = [] then .ok routes
    else do
      let routes' ← apply_aggregates prs routes
      coalesce_fuel fuel routes'

/-- `Router.coalesce`.  Each successful recursion step strictly shrinks the
table, so `length + 1` fuel is enough for every run that terminates. -/
def coalesce (routes : List RouteRec) : Except PyErr (List RouteRec) :=
  coalesce_fuel (routes.length + 1) routes

/-- Size of a route tree (used only to budget loop fuel). -/
def RouteRec.size : RouteRec → Nat
  | .leaf _ => 1
  | .node _ c0 c1 => 1 + c0.size + c1.size

/-- An inbound `update` record: `src`/`dst` plus the `msg` payload fields. -/
structure UpdateMsg where
  src : PyStr
  dst : PyStr
  network : PyStr
  netmask : PyStr
  localpref : Nat
  selfOrigin : Bool
  ASPath : List Nat
  origin : PyStr
deriving DecidableEq, Repr

/-- One entry of a withdraw payload list. -/
structure Descriptor where
  network : PyStr
  netmask : PyStr
deriving DecidableEq, Repr

/-- An inbound `withdraw` record. -/
structure WithdrawMsg where
  src : PyStr
  dst : PyStr
  payload : List Descriptor
deriving DecidableEq, Repr

/-- An inbound `data` record (opaque payload omitted). -/
structure DataMsg where
  src : PyStr
  dst : PyStr
deriving DecidableEq, Repr

/-- An inbound `dump` record. -/
structure DumpMsg where
  src : PyStr
  dst : PyStr
deriving DecidableEq, Repr

/-- An entry of the `self.updates` log.  A withdraw entry records the final
field values of the logged dict, whose `src`/`dst` the propagation loop
overwrites in place. -/
inductive LogMsg where
  | update (m : UpdateMsg)
  | withdraw (m : WithdrawMsg)
deriving DecidableEq, Repr

/-- An outbound record, paired elsewhere with the neighbor it is sent to. -/
inductive OutMsg where
  | updateFwd (src dst network netmask : PyStr) (ASPath : List Nat)
  | withdrawFwd (src dst : PyStr) (payload : List Descriptor)
  | dataFwd (src dst : PyStr)
  | noRoute (src dst : PyStr)
  | table (src dst : PyStr) (payload : List RouteAttrs)
deriving DecidableEq, Repr

/-- Router state: AS number, neighbor→relationship map (insertion-ordered
association list), the update log and the top-level routing table. -/
structure RState where
  asn : Nat
  relations : List (PyStr × PyStr)
  updates : List LogMsg
  routes : List RouteRec
deriving DecidableEq, Repr

def initState (asn : Nat) (relations : List (PyStr × PyStr)) : RState :=
  { asn := asn, relations := relations, updates := [], routes := [] }

/-- `self.relations[k]` (defaults to `""` off the configured map). -/
def relget (relations : List (PyStr × PyStr)) (k : PyStr) : PyStr :=
  (relations.lookup k).getD []

/-- The neighbors a received update/withdraw is propagated to: every
neighbor other than the source, provided the source or the target is a
customer. -/
def propagation_targets (relations : List (PyStr × PyStr)) (srcif : PyStr) :
    List PyStr :=
  (relations.map Prod.fst).filter (fun n =>
    n != srcif && (relget relations srcif == "cust".data
      || relget relations n == "cust".data))

/-- The leaf inserted by `handle_update_msg`: the payload plus
`peer = msg["src"]` and absent children. -/
def new_route_of (m : UpdateMsg) : RouteRec :=
  .leaf ⟨m.network, m.netmask, m.src, m.localpref, m.selfOrigin, m.ASPath, m.origin⟩

/-- `Router.handle_update_msg`: log, insert the leaf, coalesce, then send
the rewritten update to the propagation targets. -/
def handle_update_msg (s : RState) (srcif : PyStr) (m : UpdateMsg) :
    Except PyErr (RState × List (PyStr × OutMsg)) := do
  let routes' ← coalesce (s.routes ++ [new_route_of m])
  let targets := propagation_targets s.relations srcif
  .ok ({ s with
          updates := s.updates ++ [.update m]
          routes := routes' },
       targets.map (fun n =>
         (n, .updateFwd (our_addr n) n m.network m.netmask (s.asn :: m.ASPath))))

/-- `Router.withdraw_route`: recursive withdraw matching.  The returned
list is `self.routes` after the re-exposure appends performed inside the
call (appends happen only on a successful match). -/
def withdraw_route (srcif : PyStr) (d : Descriptor) :
    RouteRec → List RouteRec → Bool × List RouteRec
  | .leaf a, routes =>
    if a.network = d.network ∧ a.netmask = d.netmask ∧ a.peer = srcif then
      (true, routes)
    else (false, routes)
  | .node a c0 c1, routes =>
    if a.network = d.network ∧ a.netmask = d.netmask ∧ a.peer = srcif then
      (true, routes)
    else
      match withdraw_route srcif d c0 routes with
      | (true, rs1) => (true, if c1 ∈ rs1 then rs1 else rs1 ++ [c1])
      | (false, rs1) =>
        match withdraw_route srcif d c1 rs1 with
        | (true, rs2) => (true, if c0 ∈ rs2 then rs2 else rs2 ++ [c0])
        | (false, rs2) => (false, rs2)

/-- The inner `for withdraw_msg in msg["msg"]` loop of
`handle_withdraw_msg` for one examined route: threads `self.routes` and
appends the route to `withdraw_routes` once per matching descriptor. -/
def examine_route (srcif : PyStr) (ds : List Descriptor) (r : RouteRec)
    (routes collected : List RouteRec) : List RouteRec × List RouteRec :=
  ds.foldl (fun st d =>
    let p := withdraw_route srcif d r st.1
    (p.2, if p.1 then st.2 ++ [r] else st.2)) (routes, collected)

/-- The outer `for route in self.routes` loop of `handle_withdraw_msg`:
Python iterates by index over the live, append-only list, so items
appended during iteration are examined too. -/
def withdraw_loop (srcif : PyStr) (ds : List Descriptor) :
    Nat → Nat → List RouteRec → List RouteRec →
    Except PyErr (List RouteRec × List RouteRec)
  | 0, _, _, _ => .error .outOfFuel
  | fuel + 1, idx, routes, collected =>
    if h : idx < routes.length then
      let st := examine_route srcif ds routes[idx] routes collected
      withdraw_loop srcif ds fuel (idx + 1) st.1 st.2
    else .ok (routes, collected)

/-- Fuel for `withdraw_loop`: the loop examines at most the original
entries plus one append per distinct re-exposed subtree value. -/
def withdraw_fuel (routes : List RouteRec) : Nat :=
  routes.length + (routes.map RouteRec.size).sum + 1

/-- The final `for withdraw_route in withdraw_routes` removal loop:
`remove` guarded by membership. -/
def remove_collected (collected routes : List RouteRec) : List RouteRec :=
  collected.foldl (fun rs r => if r ∈ rs then rs.erase r else rs) routes

/-- `Router.handle_withdraw_msg`.  The logged record is the inbound dict,
whose `src`/`dst` fields end up holding the last propagation target's
values (the same object is mutated in the send loop). -/
def handle_withdraw_msg (s : RState) (srcif : PyStr) (m : WithdrawMsg) :
    Except PyErr (RState × List (PyStr × OutMsg)) := do
  let st ← withdraw_loop srcif m.payload (withdraw_fuel s.routes) 0 s.routes []
  let routes' := remove_collected st.2 st.1
  let targets := propagation_targets s.relations srcif
  let sd := targets.foldl (fun _sd n => (our_addr n, n)) (m.src, m.dst)
  .ok ({ s with
          updates := s.updates ++ [.withdraw { m with src := sd.1, dst := sd.2 }]
          routes := routes' },
       targets.map (fun n => (n, .withdrawFwd (our_addr n) n m.payload)))

/-- The candidate test of `find_routes`: the destination agrees with the
route's network on the first `get_netmask_length` bits. -/
def matchesDest (dest : PyStr) (r : RouteRec) : Prop :=
  (ip_to_binary_string dest).take (get_netmask_length r.netmask)
    = (ip_to_binary_string r.network).take (get_netmask_length r.netmask)

instance (dest : PyStr) (r : RouteRec) : Decidable (matchesDest dest r) := by
  unfold matchesDest
  infer_instance

/-- One step of the scan in `Router.find_routes`: `st` is the pair
`(valid_netmask_length, valid_routes)` (initially `(-1, [])`). -/
def frStep (dest : PyStr) (st : Int × List RouteRec) (route : RouteRec) :
    Int × List RouteRec :=
  let netmask_length := get_netmask_length route.netmask
  if matchesDest dest route then
    if st.1 < (netmask_length : Int) then ((netmask_length : Int), [route])
    else if st.1 = (netmask_length : Int) then
      match st.2 with
      | [] => st
      | v0 :: _ =>
        if v0.localpref < route.localpref then ((netmask_length : Int), [route])
        else if v0.localpref = route.localpref then
          if v0.selfOrigin = false ∧ route.selfOrigin = true then
            ((netmask_length : Int), [route])
          else if v0.selfOrigin = route.selfOrigin then
            if route.ASPath.length < v0.ASPath.length then
              ((netmask_length : Int), [route])
            else if v0.ASPath.length = route.ASPath.length then
              if (route.origin = "IGP".data ∧ v0.origin ≠ "IGP".data)
                  ∨ (route.origin = "EGP".data ∧ v0.origin = "UNK".data) then
                ((netmask_length : Int), [route])
              else if route.origin = v0.origin then
                if route.peer < v0.peer then ((netmask_length : Int), [route])
                else if route.peer < v0.peer then (st.1, st.2 ++ [route])
                else st
              else st
            else st
          else st
        else st
    else st
  else st

/-- The candidate scan of `Router.find_routes` (everything before the
customer policy filter). -/
def find_valid_routes (routes : List RouteRec) (dest : PyStr) :
    Int × List RouteRec :=
  routes.foldl (frStep dest) (-1, [])

/-- `Router.find_routes`: scan, policy filter, and first survivor. -/
def find_routes (s : RState) (srcif dest : PyStr) : Option RouteRec :=
  let valid_routes := (find_valid_routes s.routes dest).2
  let filtered := if relget s.relations srcif ≠ "cust".data then
      valid_routes.filter (fun r => relget s.relations r.peer == "cust".data)
    else valid_routes
  filtered.head?

/-- `Router.handle_data_msg`: forward along the chosen route, or reply
`no route` to the source interface. -/
def handle_data_msg (s : RState) (srcif : PyStr) (m : DataMsg) :
    List (PyStr × OutMsg) :=
  match find_routes s srcif m.dst with
  | none => [(srcif, .noRoute (our_addr srcif) m.src)]
  | some route => [(route.peer, .dataFwd m.src m.dst)]

/-- `Router.handle_dump_msg`: reply to `msg["src"]` with a `table` record
whose `src` is the inbound `msg["dst"]` and whose payload is every
top-level route with `child0`/`child1` popped. -/
def handle_dump_msg (s : RState) (m : DumpMsg) : List (PyStr × OutMsg) :=
  [(m.src, .table m.dst m.src (s.routes.map RouteRec.attrs))]

def RouteRec.children : RouteRec → Option (RouteRec × RouteRec)
  | .leaf _ => none
  | .node _ c0 c1 => some (c0, c1)

def RouteRec.child0 (r : RouteRec) : Option RouteRec := r.children.map Prod.fst

def RouteRec.child1 (r : RouteRec) : Option RouteRec := r.children.map Prod.snd

/-- The numeric (big-endian base-256) value of a dotted-quad address, used
to state the spec's "numerically smaller" side of claims. -/
def ipNum (ip : PyStr) : Nat :=
  ((pySplit '.' ip).map pyInt).foldl (fun a q => a * 256 + q) 0

/-- The spec's well-formedness condition on a netmask: its binary form is
a run of 1-bits followed by 0-bits. -/
def isContiguousMask (netmask : PyStr) : Bool :=
  let b := ip_to_binary_string netmask
  b = List.replicate (b.count '1') '1' ++ List.replicate (b.length - b.count '1') '0'

/-- An inbound table-mutating message, as dispatched by `handle_msg`. -/
inductive InMsg where
  | update (srcif : PyStr) (m : UpdateMsg)
  | withdraw (srcif : PyStr) (m : WithdrawMsg)
deriving DecidableEq, Repr

def handle_one (s : RState) : InMsg → Except PyErr RState
  | .update srcif m => (handle_update_msg s srcif m).map Prod.fst
  | .withdraw srcif m => (handle_withdraw_msg s srcif m).map Prod.fst

/-- Sequential processing of a run of update/withdraw messages. -/
def process : RState → List InMsg → Except PyErr RState
  | s, [] => .ok s
  | s, msg :: rest => do
    let s' ← handle_one s msg
    process s' rest

/-- `a` is the attribute record of some leaf of some top-level tree. -/
def LeafIn (a : RouteAttrs) (routes : List RouteRec) : Prop :=
  ∃ r ∈ routes, a ∈ r.leaves

/-- Whether `withdraw_route` matches inside the tree `r`: the root — or,
recursively, a descendant — has the descriptor's network and netmask and
was announced by `srcif`. -/
def wrMatched (srcif : PyStr) (d : Descriptor) : RouteRec → Bool
  | .leaf a =>
    decide (a.network = d.network ∧ a.netmask = d.netmask ∧ a.peer = srcif)
  | .node a c0 c1 =>
    decide (a.network = d.network ∧ a.netmask = d.netmask ∧ a.peer = srcif)
      || wrMatched srcif d c0 || wrMatched srcif d c1

/-- The multiset of (network, netmask, announcing peer) triples of a run
of update messages (the leaf identities the updates create). -/
def updateTriples (updates : List (PyStr × UpdateMsg)) :
    Multiset (PyStr × PyStr × PyStr) :=
  ↑(updates.map (fun p => (p.2.network, p.2.netmask, p.2.src)))

/-- The multiset of (network, netmask, withdrawing peer) triples of a run
of withdraw messages. -/
def withdrawTriples (withdraws : List (PyStr × WithdrawMsg)) :
    Multiset (PyStr × PyStr × PyStr) :=
  ↑(withdraws.flatMap (fun p => p.2.payload.map (fun d => (d.network, d.netmask, p.1))))

/-- `r` is a candidate for `dest` tied for the maximum prefix length. -/
def candAtMax (routes : List RouteRec) (dest : PyStr) (r : RouteRec) : Prop :=
  r ∈ routes ∧ matchesDest dest r ∧
    ∀ c ∈ routes, matchesDest dest c →
      get_netmask_length c.netmask ≤ get_netmask_length r.netmask

/-- The spec's preference order on origins: `IGP > EGP > UNK` (rank 0 is
best). -/
def originRank (o : PyStr) : Nat :=
  if o = "IGP".data then 0 else if o = "EGP".data then 1
  else if o = "UNK".data then 2 else 3

/-- The origin field is one of the three legal values. -/
def validOrigin (o : PyStr) : Prop :=
  o = "IGP".data ∨ o = "EGP".data ∨ o = "UNK".data

/-- Modelled from the spec's words (§4.3, tie-break cascade): `r` strictly
beats `v` by the ordered cascade — higher `localpref`; else
`selfOrigin = true` beats `false`; else shorter `ASPath`; else better
origin (`IGP > EGP > UNK`); else lower `peer` address.  Used as the
specification side of the refinement claim C1. -/
def spec_cascade_prefers (r v : RouteRec) : Prop :=
  v.localpref < r.localpref
  ∨ (r.localpref = v.localpref ∧
     ((v.selfOrigin = false ∧ r.selfOrigin = true)
      ∨ (r.selfOrigin = v.selfOrigin ∧
         (r.ASPath.length < v.ASPath.length
          ∨ (r.ASPath.length = v.ASPath.length ∧
             (originRank r.origin < originRank v.origin
              ∨ (r.origin = v.origin ∧ r.peer < v.peer)))))))

instance (o : PyStr) : Decidable (validOrigin o) := by
  unfold validOrigin
  infer_instance

instance (routes : List RouteRec) (dest : PyStr) (r : RouteRec) :
    Decidable (candAtMax routes dest r) := by
  unfold candAtMax
  infer_instance

instance (r v : RouteRec) : Decidable (spec_cascade_prefers r v) := by
  unfold spec_cascade_prefers
  infer_instance

/-- All candidates of `seen` at prefix length `n` carry pairwise distinct
peer addresses. -/
def distinctPeersAt (dest : PyStr) (seen : List RouteRec) (n : Nat) : Prop :=
  ∀ c1 ∈ seen, ∀ c2 ∈ seen, matchesDest dest c1 → matchesDest dest c2 →
    get_netmask_length c1.netmask = n → get_netmask_length c2.netmask = n →
    c1 ≠ c2 → c1.peer ≠ c2.peer

/-- Loop invariant of the `find_routes` scan over the processed prefix
`seen`: either no candidate has been seen and the state is still
`(-1, [])`, or the state holds exactly the best candidate so far — a
candidate `b` of maximal seen prefix length which, provided the seen
candidates at that length have pairwise distinct peers, strictly beats
every other seen candidate of that length under the spec's cascade. -/
def scanInv (dest : PyStr) (seen : List RouteRec) (st : Int × List RouteRec) : Prop :=
  (st = (-1, []) ∧ ∀ c ∈ seen, ¬ matchesDest dest c)
  ∨ (∃ b, st = ((get_netmask_length b.netmask : Int), [b])
      ∧ b ∈ seen ∧ matchesDest dest b
      ∧ (∀ c ∈ seen, matchesDest dest c →
          get_netmask_length c.netmask ≤ get_netmask_length b.netmask)
      ∧ (distinctPeersAt dest seen (get_netmask_length b.netmask) →
          ∀ c ∈ seen, matchesDest dest c →
            get_netmask_length c.netmask = get_netmask_length b.netmask →
            c ≠ b → spec_cascade_prefers b c))

/-! ### Concrete data used by counterexamples and witnesses -/


/-- `96.0.0.0/6`-style record: network `96.0.0.0`, netmask `252.0.0.0`. -/
def cex96 : RouteRec :=
  .leaf ⟨"96.0.0.0".data, "252.0.0.0".data, "192.168.0.2".data, 100, true, [2], "IGP".data⟩

/-- Sibling `100.0.0.0` with the same `252.0.0.0` netmask and attributes. -/
def cex100 : RouteRec :=
  .leaf ⟨"100.0.0.0".data, "252.0.0.0".data, "192.168.0.2".data, 100, true, [2], "IGP".data⟩

/-- `192.168.0.0/24` record announced by `192.168.0.2`. -/
def cexA : RouteRec :=
  .leaf ⟨"192.168.0.0".data, "255.255.255.0".data, "192.168.0.2".data, 100, true, [2], "IGP".data⟩

/-- `192.168.1.0/24` record with the same attributes. -/
def cexB : RouteRec :=
  .leaf ⟨"192.168.1.0".data, "255.255.255.0".data, "192.168.0.2".data, 100, true, [2], "IGP".data⟩

/-- Two customer neighbors, as configured at startup. -/
def nbrs : List (PyStr × PyStr) :=
  [("192.168.1.2".data, "cust".data), ("192.168.2.2".data, "cust".data)]

/-- Update from neighbor 1 announcing `10.1.0.0/24`. -/
def crashU1 : UpdateMsg :=
  ⟨"192.168.1.2".data, "192.168.1.1".data, "10.1.0.0".data,
    "255.255.255.0".data, 100, false, [2], "IGP".data⟩

/-- Update from neighbor 2 announcing the same `10.1.0.0/24` with
identical attributes. -/
def crashU2 : UpdateMsg :=
  ⟨"192.168.2.2".data, "192.168.2.1".data, "10.1.0.0".data,
    "255.255.255.0".data, 100, false, [2], "IGP".data⟩

/-- Update from neighbor 1 announcing the adjacent sibling `10.1.1.0/24`. -/
def crashU3 : UpdateMsg :=
  ⟨"192.168.1.2".data, "192.168.1.1".data, "10.1.1.0".data,
    "255.255.255.0".data, 100, false, [2], "IGP".data⟩

/-- The (reachable) router state after the first two updates. -/
def crashMid : RState :=
  { asn := 7
    relations := nbrs
    updates := [.update crashU1, .update crashU2]
    routes := [new_route_of crashU1, new_route_of crashU2] }

/-- A withdraw of `10.0.0.0/24` from neighbor 1. -/
def cexW : WithdrawMsg :=
  ⟨"192.168.1.2".data, "192.168.1.1".data,
    [⟨"10.0.0.0".data, "255.255.255.0".data⟩]⟩

/-- An update of `10.0.0.0/24` from neighbor 1. -/
def cexU : UpdateMsg :=
  ⟨"192.168.1.2".data, "192.168.1.1".data, "10.0.0.0".data,
    "255.255.255.0".data, 100, false, [2], "IGP".data⟩

/-- State after `cexU` arrives at a fresh router. -/
def cexUState : RState :=
  { asn := 7
    relations := nbrs
    updates := [.update cexU]
    routes := [new_route_of cexU] }

/-- Sends of `cexU`'s handling. -/
def cexUSends : List (PyStr × OutMsg) :=
  [("192.168.2.2".data,
    .updateFwd "192.168.2.1".data "192.168.2.2".data "10.0.0.0".data
      "255.255.255.0".data [7, 2])]

/-- State after `cexW` arrives at a fresh router: note the logged record's
`src`/`dst` are the last propagation target's values, not the inbound
ones. -/
def cexWState : RState :=
  { asn := 7
    relations := nbrs
    updates := [.withdraw ⟨"192.168.2.1".data, "192.168.2.2".data, cexW.payload⟩]
    routes := [] }

/-- Sends of `cexW`'s handling. -/
def cexWSends : List (PyStr × OutMsg) :=
  [("192.168.2.2".data,
    .withdrawFwd "192.168.2.1".data "192.168.2.2".data cexW.payload)]

/-- An update whose netmask `0.255.0.0` is non-contiguous. -/
def cexNC : UpdateMsg :=
  ⟨"192.168.1.2".data, "192.168.1.1".data, "10.0.0.0".data,
    "0.255.0.0".data, 100, false, [2], "IGP".data⟩

/-- State after the non-contiguous-netmask update `cexNC` arrives at a
fresh router: the route is inserted like any other. -/
def ncState : RState :=
  { asn := 7
    relations := nbrs
    updates := [.update cexNC]
    routes := [new_route_of cexNC] }

/-- Sends of `cexNC`'s handling. -/
def ncSends : List (PyStr × OutMsg) :=
  [("192.168.2.2".data,
    .updateFwd "192.168.2.1".data "192.168.2.2".data "10.0.0.0".data
      "0.255.0.0".data [7, 2])]

/-- A dump whose `dst` field is not the router's derived interface
address. -/
def cexDump : DumpMsg := ⟨"192.168.1.2".data, "9.9.9.9".data⟩

/-- Router state after `crashU1` alone. -/
def crashS1 : RState :=
  { asn := 7
    relations := nbrs
    updates := [.update crashU1]
    routes := [new_route_of crashU1] }

/-- Sends produced by handling `crashU2` at `crashS1`. -/
def crashSends2 : List (PyStr × OutMsg) :=
  [("192.168.1.2".data,
    .updateFwd "192.168.1.1".data "192.168.1.2".data "10.1.0.0".data
      "255.255.255.0".data [7, 2])]

/-- Relations used by the C6 witness: neighbor 1 is a peer, neighbor 2 a
customer. -/
def relsPC : List (PyStr × PyStr) :=
  [("192.168.1.2".data, "peer".data), ("192.168.2.2".data, "cust".data)]

/-- A customer-learned route for `10.0.0.0/24`. -/
def custRoute : RouteRec :=
  .leaf ⟨"10.0.0.0".data, "255.255.255.0".data, "192.168.2.2".data, 100, false, [2], "IGP".data⟩

/-- Router state for the C6 witness. -/
def s6 : RState :=
  { asn := 7, relations := relsPC, updates := [], routes := [custRoute] }

/-- A data record whose destination matches `custRoute`. -/
def d6hit : DataMsg := ⟨"172.16.0.9".data, "10.0.0.5".data⟩

/-- A data record whose destination matches nothing. -/
def d6miss : DataMsg := ⟨"172.16.0.9".data, "99.0.0.1".data⟩

/-- Two tied `/24` candidates differing in localpref, for the C1
witness. -/
def w1t1 : RouteRec :=
  .leaf ⟨"10.0.0.0".data, "255.255.255.0".data, "192.168.1.2".data, 100, false, [2], "IGP".data⟩

/-- The higher-localpref competitor. -/
def w1t2 : RouteRec :=
  .leaf ⟨"10.0.0.0".data, "255.255.255.0".data, "192.168.2.2".data, 200, false, [2], "IGP".data⟩

/-! ### Auxiliary lemmas -/

/-- For lengths `0 ≤ n ≤ 32`, `netmask_with_length` inverts
`get_netmask_length`. -/
theorem get_netmask_length_netmask_with_length :
    ∀ n : Nat, n < 33 → get_netmask_length (netmask_with_length (n : Int)) = n := by
  decide

/-- `bind` on a successful `Except` computation. -/
theorem except_bind_ok {α β : Type} (a : α) (f : α → Except PyErr β) :
    (Except.ok a >>= f) = f a := rfl

/-- `bind` on a failed `Except` computation. -/
theorem except_bind_err {α β : Type} (e : PyErr) (f : α → Except PyErr β) :
    ((Except.error e : Except PyErr α) >>= f) = Except.error e := rfl

/-! ### C2 -/

/-- **C2, counterexample.**  `cex96` and `cex100` are mergeable (equal
netmasks of length `L = 6`, equal attributes, equal first 5 network bits,
differing bit 5), and `cex96`'s network is the numerically smaller one
(the one with a 0 in bit `L-1`), but the aggregate's `network` is
`100.0.0.0`, not the numerically smaller `96.0.0.0`, and `child0` is the
`100.0.0.0` record, not the smaller-network record.  (Python compares the
dotted-quad *strings*, and `"96.0.0.0" > "100.0.0.0"` lexicographically.) -/
theorem C2_counterexample :
    (cex96.netmask = cex100.netmask ∧ get_netmask_length cex96.netmask = 6
      ∧ cex96.localpref = cex100.localpref ∧ cex96.selfOrigin = cex100.selfOrigin
      ∧ cex96.ASPath = cex100.ASPath ∧ cex96.origin = cex100.origin
      ∧ pySliceTo (ip_to_binary_string cex96.network) 5
          = pySliceTo (ip_to_binary_string cex100.network) 5
      ∧ pyIdx (ip_to_binary_string cex96.network) 5
          ≠ pyIdx (ip_to_binary_string cex100.network) 5)
    ∧ ipNum cex96.network < ipNum cex100.network
    ∧ pyIdx (ip_to_binary_string cex96.network) 5 = '0'
    ∧ (aggregate_routes cex96 cex100).map RouteRec.network
        = some "100.0.0.0".data
    ∧ (aggregate_routes cex96 cex100).map RouteRec.child0
        = some (some cex100) := by
  decide

/-- **C2, amended.**  For mergeable records the aggregate's netmask has
length `L-1` and it inherits the common attributes, but its `network` is
the *lexicographically* smaller of the two dotted-quad strings (Python
string `>`), `child0` the lexicographically-smaller-network record and
`child1` the larger — which agrees with "numerically smaller" only when
string order and numeric order agree. -/
theorem C2_amended (r1 r2 : RouteRec) (L : Nat)
    (hL : get_netmask_length r1.netmask = L) (h1 : 1 ≤ L) (h32 : L ≤ 32)
    (hmask : r1.netmask = r2.netmask) (hlp : r1.localpref = r2.localpref)
    (hso : r1.selfOrigin = r2.selfOrigin) (has : r1.ASPath = r2.ASPath)
    (hor : r1.origin = r2.origin)
    (hpre : pySliceTo (ip_to_binary_string r1.network) ((L : Int) - 1)
      = pySliceTo (ip_to_binary_string r2.network) ((L : Int) - 1))
    (hbit : pyIdx (ip_to_binary_string r1.network) ((L : Int) - 1)
      ≠ pyIdx (ip_to_binary_string r2.network) ((L : Int) - 1)) :
    ∃ ag, aggregate_routes r1 r2 = some ag
      ∧ get_netmask_length ag.netmask = L - 1
      ∧ ag.network = (if r2.network < r1.network then r2.network else r1.network)
      ∧ ag.child0 = some (if r2.network < r1.network then r2 else r1)
      ∧ ag.child1 = some (if r2.network < r1.network then r1 else r2)
      ∧ ag.peer = r1.peer ∧ ag.localpref = r1.localpref
      ∧ ag.selfOrigin = r1.selfOrigin ∧ ag.ASPath = r1.ASPath
      ∧ ag.origin = r1.origin := by
  have hcast : (L : Int) - 1 = ((L - 1 : Nat) : Int) := by omega
  have hlen : get_netmask_length (netmask_with_length ((L : Int) - 1)) = L - 1 := by
    rw [hcast]
    exact get_netmask_length_netmask_with_length (L - 1) (by omega)
  unfold aggregate_routes
  rw [if_neg (by push_neg; exact ⟨hmask, hlp, hso, has, hor⟩)]
  simp only [hL]
  rw [if_neg (by push_neg; exact ⟨hpre, hbit⟩)]
  by_cases hlt : r2.network < r1.network
  · rw [if_pos hlt]
    refine ⟨_, rfl, ?_⟩
    simp only [if_pos hlt]
    exact ⟨hlen, rfl, rfl, rfl, rfl, rfl, rfl, rfl, rfl⟩
  · rw [if_neg hlt]
    refine ⟨_, rfl, ?_⟩
    simp only [if_neg hlt]
    exact ⟨hlen, rfl, rfl, rfl, rfl, rfl, rfl, rfl, rfl⟩

/-- A left fold that ignores its accumulator returns the image of the
last element (or the initial value on an empty list). -/
theorem foldl_const_getLast {α β : Type} (f : α → β) (init : β) :
    ∀ l : List α, l.foldl (fun _sd n => f n) init = (l.getLast?).elim init f := by
  intro l
  induction l generalizing init with
  | nil => rfl
  | cons a t ih =>
    cases t with
    | nil => rfl
    | cons b t' => exact ih (f a)

/-- Witness for `C2_amended` at the `192.168.0.0/24`–`192.168.1.0/24`
pair. -/
theorem C2_amended_witness :
    ∃ ag, aggregate_routes cexA cexB = some ag
      ∧ get_netmask_length ag.netmask = 24 - 1
      ∧ ag.network = (if cexB.network < cexA.network then cexB.network else cexA.network)
      ∧ ag.child0 = some (if cexB.network < cexA.network then cexB else cexA)
      ∧ ag.child1 = some (if cexB.network < cexA.network then cexA else cexB)
      ∧ ag.peer = cexA.peer ∧ ag.localpref = cexA.localpref
      ∧ ag.selfOrigin = cexA.selfOrigin ∧ ag.ASPath = cexA.ASPath
      ∧ ag.origin = cexA.origin :=
  C2_amended cexA cexB 24 (by decide) (by decide) (by decide) (by decide)
    (by decide) (by decide) (by decide) (by decide) (by decide) (by decide)

/-- The attribute-mismatch test of `aggregate_routes` is symmetric. -/
theorem aggregate_attrs_cond_symm (a b : RouteRec)
    (h : a.netmask ≠ b.netmask ∨ a.localpref ≠ b.localpref
      ∨ a.selfOrigin ≠ b.selfOrigin ∨ a.ASPath ≠ b.ASPath ∨ a.origin ≠ b.origin) :
    b.netmask ≠ a.netmask ∨ b.localpref ≠ a.localpref
      ∨ b.selfOrigin ≠ a.selfOrigin ∨ b.ASPath ≠ a.ASPath ∨ b.origin ≠ a.origin := by
  rcases h with h | h | h | h | h
  · exact Or.inl h.symm
  · exact Or.inr (Or.inl h.symm)
  · exact Or.inr (Or.inr (Or.inl h.symm))
  · exact Or.inr (Or.inr (Or.inr (Or.inl h.symm)))
  · exact Or.inr (Or.inr (Or.inr (Or.inr h.symm)))

/-- Mergeability is symmetric: if the ordered check yields no aggregate,
neither does the reversed one. -/
theorem aggregate_routes_none_symm (r1 r2 : RouteRec)
    (h : aggregate_routes r1 r2 = none) : aggregate_routes r2 r1 = none := by
  by_cases hA : r2.netmask ≠ r1.netmask ∨ r2.localpref ≠ r1.localpref
      ∨ r2.selfOrigin ≠ r1.selfOrigin ∨ r2.ASPath ≠ r1.ASPath
      ∨ r2.origin ≠ r1.origin
  · simp only [aggregate_routes, if_pos hA]
  · have hA' : ¬(r1.netmask ≠ r2.netmask ∨ r1.localpref ≠ r2.localpref
        ∨ r1.selfOrigin ≠ r2.selfOrigin ∨ r1.ASPath ≠ r2.ASPath
        ∨ r1.origin ≠ r2.origin) :=
      fun hc => hA (aggregate_attrs_cond_symm r1 r2 hc)
    have hmask : r1.netmask = r2.netmask := by
      by_contra hc
      exact hA' (Or.inl hc)
    simp only [aggregate_routes, if_neg hA'] at h
    by_cases hB : pySliceTo (ip_to_binary_string r1.network)
          ((get_netmask_length r1.netmask : Int) - 1)
        ≠ pySliceTo (ip_to_binary_string r2.network)
          ((get_netmask_length r1.netmask : Int) - 1)
      ∨ pyIdx (ip_to_binary_string r1.network)
          ((get_netmask_length r1.netmask : Int) - 1)
        = pyIdx (ip_to_binary_string r2.network)
          ((get_netmask_length r1.netmask : Int) - 1)
    · have hB' : pySliceTo (ip_to_binary_string r2.network)
            ((get_netmask_length r2.netmask : Int) - 1)
          ≠ pySliceTo (ip_to_binary_string r1.network)
            ((get_netmask_length r2.netmask : Int) - 1)
        ∨ pyIdx (ip_to_binary_string r2.network)
            ((get_netmask_length r2.netmask : Int) - 1)
          = pyIdx (ip_to_binary_string r1.network)
            ((get_netmask_length r2.netmask : Int) - 1) := by
        rw [← hmask]
        rcases hB with hB | hB
        · exact Or.inl (fun hc => hB hc.symm)
        · exact Or.inr hB.symm
      simp only [aggregate_routes, if_neg hA, if_pos hB']
    · rw [if_neg hB] at h
      exfalso
      revert h
      split <;> simp

/-- If one pass of `coalesce` collects nothing, every ordered pair of
table records fails to aggregate. -/
theorem coalesce_pairs_eq_nil {routes : List RouteRec}
    (h : coalesce_pairs routes = []) :
    ∀ r1 r2, [r1, r2].Sublist routes → aggregate_routes r1 r2 = none := by
  induction routes with
  | nil =>
    intro r1 r2 hs
    exact absurd (hs.length_le) (by simp)
  | cons r rest ih =>
    intro r1 r2 hs
    rw [coalesce_pairs, List.append_eq_nil] at h
    cases hs with
    | cons _ hs' => exact ih h.2 r1 r2 hs'
    | cons₂ _ hs' =>
      have hr2 : r2 ∈ rest := by
        have := hs'.subset
        simp at this
        exact this
      have := (List.filterMap_eq_nil_iff.mp h.1) r2 hr2
      exact Option.map_eq_none'.mp this

/-- A successful `coalesce` run ends with a pass that collected nothing. -/
theorem coalesce_fuel_ok_pairs :
    ∀ (fuel : Nat) (routes out : List RouteRec),
      coalesce_fuel fuel routes = .ok out → coalesce_pairs out = [] := by
  intro fuel
  induction fuel with
  | zero => intro routes out h; exact Except.noConfusion h
  | succ n ih =>
    intro routes out h
    rw [coalesce_fuel] at h
    by_cases hp : coalesce_pairs routes = []
    · rw [if_pos hp] at h
      cases h
      exact hp
    · rw [if_neg hp] at h
      cases ha : apply_aggregates (coalesce_pairs routes) routes with
      | error e => rw [ha, except_bind_err] at h; exact Except.noConfusion h
      | ok routes' =>
        rw [ha, except_bind_ok] at h
        exact ih routes' out h

/-! ### C3 -/

/-- **C3.**  Whenever an update message is handled successfully (insertion
followed by coalescing to fixpoint), no two records of the resulting
top-level table — in either order — can be aggregated: coalescing reached
a fixpoint. -/
theorem C3_update_coalesce_fixpoint (s : RState) (srcif : PyStr) (m : UpdateMsg)
    (s' : RState) (sends : List (PyStr × OutMsg))
    (h : handle_update_msg s srcif m = .ok (s', sends)) :
    ∀ r1 r2, [r1, r2].Sublist s'.routes →
      aggregate_routes r1 r2 = none ∧ aggregate_routes r2 r1 = none := by
  unfold handle_update_msg at h
  cases hc : coalesce (s.routes ++ [new_route_of m]) with
  | error e => rw [hc, except_bind_err] at h; exact Except.noConfusion h
  | ok routes' =>
    rw [hc, except_bind_ok] at h
    simp only [Except.ok.injEq, Prod.mk.injEq] at h
    have hroutes : s'.routes = routes' := by rw [← h.1]
    have hfix : coalesce_pairs s'.routes = [] := by
      rw [hroutes]
      exact coalesce_fuel_ok_pairs _ _ _ hc
    intro r1 r2 hs
    have h12 := coalesce_pairs_eq_nil hfix r1 r2 hs
    exact ⟨h12, aggregate_routes_none_symm r1 r2 h12⟩

/-- Witness for `C3_update_coalesce_fixpoint`: after the second identical
announcement the two table records cannot be merged in either order. -/
theorem C3_witness :
    aggregate_routes (new_route_of crashU1) (new_route_of crashU2) = none
      ∧ aggregate_routes (new_route_of crashU2) (new_route_of crashU1) = none :=
  C3_update_coalesce_fixpoint crashS1 "192.168.2.2".data crashU2 crashMid
    crashSends2 (by decide) (new_route_of crashU1) (new_route_of crashU2)
    (by rw [show crashMid.routes = [new_route_of crashU1, new_route_of crashU2] from rfl])

/-! ### C10 -/

/-- **C10.**  The state `crashMid` is reachable (two neighbors announced
the same `10.1.0.0/24` with identical attributes).  Its two table records
are distinct, yet each is mergeable with the sibling `10.1.1.0/24` leaf
the third update inserts, so `coalesce` collects both overlapping pairs;
applying them removes the shared new leaf twice, and the second
`list.remove` raises `ValueError`: the single update message aborts
processing. -/
theorem C10_one_update_crashes :
    process (initState 7 nbrs)
        [.update "192.168.1.2".data crashU1, .update "192.168.2.2".data crashU2]
      = .ok crashMid
    ∧ crashMid.routes = [new_route_of crashU1, new_route_of crashU2]
    ∧ new_route_of crashU1 ≠ new_route_of crashU2
    ∧ (aggregate_routes (new_route_of crashU1) (new_route_of crashU3)).isSome = true
    ∧ (aggregate_routes (new_route_of crashU2) (new_route_of crashU3)).isSome = true
    ∧ handle_update_msg crashMid "192.168.1.2".data crashU3 = .error .valueError
    ∧ process (initState 7 nbrs)
        [.update "192.168.1.2".data crashU1, .update "192.168.2.2".data crashU2,
         .update "192.168.1.2".data crashU3]
      = .error .valueError := by
  decide

/-! ### C7 -/

/-- **C7, counterexample.**  Handling the withdraw `cexW` (raw inbound
`src = 192.168.1.2`, `dst = 192.168.1.1`) at a fresh two-neighbor router
logs a record whose `src`/`dst` are `192.168.2.1`/`192.168.2.2` — the
propagation loop mutates the very dict that was appended to the log — so
the logged record does not equal the record as received. -/
theorem C7_counterexample :
    handle_withdraw_msg (initState 7 nbrs) "192.168.1.2".data cexW
      = .ok (cexWState, cexWSends)
    ∧ cexWState.updates = [.withdraw ⟨"192.168.2.1".data, "192.168.2.2".data, cexW.payload⟩]
    ∧ cexWState.updates ≠ [.withdraw cexW] := by
  decide

/-- **C7, amended.**  Every handled update or withdraw appends exactly one
record to the log and leaves earlier entries untouched.  An update is
logged exactly as received.  A withdraw is logged with its payload intact
but with `src`/`dst` overwritten to the derived address of the last
propagation target and that target (unchanged when no neighbor qualifies),
because the propagation loop mutates the logged object in place. -/
theorem C7_amended (s : RState) (srcif : PyStr) :
    (∀ m s' sends, handle_update_msg s srcif m = .ok (s', sends) →
      s'.updates = s.updates ++ [.update m])
    ∧ (∀ m s' sends, handle_withdraw_msg s srcif m = .ok (s', sends) →
      s'.updates = s.updates ++ [.withdraw { m with
        src := ((propagation_targets s.relations srcif).getLast?).elim m.src our_addr
        dst := ((propagation_targets s.relations srcif).getLast?).elim m.dst id }]) := by
  constructor
  · intro m s' sends h
    unfold handle_update_msg at h
    cases hc : coalesce (s.routes ++ [new_route_of m]) with
    | error e => rw [hc, except_bind_err] at h; exact Except.noConfusion h
    | ok routes' =>
      rw [hc, except_bind_ok] at h
      simp only [Except.ok.injEq, Prod.mk.injEq] at h
      rw [← h.1]
  · intro m s' sends h
    unfold handle_withdraw_msg at h
    cases hw : withdraw_loop srcif m.payload (withdraw_fuel s.routes) 0 s.routes [] with
    | error e => rw [hw, except_bind_err] at h; exact Except.noConfusion h
    | ok st =>
      rw [hw, except_bind_ok] at h
      simp only [Except.ok.injEq, Prod.mk.injEq] at h
      rw [← h.1]
      simp only [foldl_const_getLast]
      rcases hl : (propagation_targets s.relations srcif).getLast? with _ | n <;>
        simp [hl, Option.elim]

/-- Witness for `C7_amended`: the update and withdraw cases at a fresh
two-neighbor router. -/
theorem C7_amended_witness :
    cexUState.updates = (initState 7 nbrs).updates ++ [.update cexU]
    ∧ cexWState.updates = (initState 7 nbrs).updates ++ [.withdraw { cexW with
        src := ((propagation_targets nbrs "192.168.1.2".data).getLast?).elim cexW.src our_addr
        dst := ((propagation_targets nbrs "192.168.1.2".data).getLast?).elim cexW.dst id }] :=
  ⟨(C7_amended (initState 7 nbrs) "192.168.1.2".data).1 cexU cexUState cexUSends (by decide),
   (C7_amended (initState 7 nbrs) "192.168.1.2".data).2 cexW cexWState cexWSends (by decide)⟩

/-! ### C5 -/

/-- **C5.**  A successful update handling sends a rewritten update to
exactly the neighbors `n` other than the source with
`relationship(srcif) = cust` or `relationship(n) = cust`, and each
outbound record carries only the network, the netmask, and the ASPath
with this router's own AS number prepended (no localpref, selfOrigin or
origin fields exist in the forwarded record). -/
theorem C5_update_propagation (s : RState) (srcif : PyStr) (m : UpdateMsg)
    (s' : RState) (sends : List (PyStr × OutMsg))
    (h : handle_update_msg s srcif m = .ok (s', sends)) :
    ∀ n out, (n, out) ∈ sends ↔
      (n ∈ s.relations.map Prod.fst ∧ n ≠ srcif
        ∧ (relget s.relations srcif = "cust".data
            ∨ relget s.relations n = "cust".data)
        ∧ out = .updateFwd (our_addr n) n m.network m.netmask (s.asn :: m.ASPath)) := by
  unfold handle_update_msg at h
  cases hc : coalesce (s.routes ++ [new_route_of m]) with
  | error e => rw [hc, except_bind_err] at h; exact Except.noConfusion h
  | ok routes' =>
    rw [hc, except_bind_ok] at h
    simp only [Except.ok.injEq, Prod.mk.injEq] at h
    have hsends : sends = (propagation_targets s.relations srcif).map
        (fun n => (n, .updateFwd (our_addr n) n m.network m.netmask (s.asn :: m.ASPath))) :=
      h.2.symm
    intro n out
    rw [hsends]
    constructor
    · intro hmem
      rcases List.mem_map.mp hmem with ⟨n', hn', heq⟩
      have hn : n' = n := congrArg Prod.fst heq
      subst hn
      rcases List.mem_filter.mp hn' with ⟨hkeys, hpred⟩
      simp only [Bool.and_eq_true, bne_iff_ne, Bool.or_eq_true, beq_iff_eq] at hpred
      exact ⟨hkeys, hpred.1, hpred.2, (congrArg Prod.snd heq).symm⟩
    · intro ⟨hkeys, hne, hcust, hout⟩
      refine List.mem_map.mpr ⟨n, List.mem_filter.mpr ⟨hkeys, ?_⟩, by rw [hout]⟩
      simp only [Bool.and_eq_true, bne_iff_ne, Bool.or_eq_true, beq_iff_eq]
      exact ⟨hne, hcust⟩

/-- Witness for `C5_update_propagation`: the fresh-router handling of
`cexU` from neighbor 1 sends to neighbor 2 exactly the stripped record. -/
theorem C5_witness :
    ("192.168.2.2".data,
        OutMsg.updateFwd "192.168.2.1".data "192.168.2.2".data "10.0.0.0".data
          "255.255.255.0".data [7, 2]) ∈ cexUSends ↔
      ("192.168.2.2".data ∈ nbrs.map Prod.fst
        ∧ "192.168.2.2".data ≠ "192.168.1.2".data
        ∧ (relget nbrs "192.168.1.2".data = "cust".data
            ∨ relget nbrs "192.168.2.2".data = "cust".data)
        ∧ OutMsg.updateFwd "192.168.2.1".data "192.168.2.2".data "10.0.0.0".data
            "255.255.255.0".data [7, 2]
          = .updateFwd (our_addr "192.168.2.2".data) "192.168.2.2".data
              cexU.network cexU.netmask (7 :: cexU.ASPath)) :=
  C5_update_propagation (initState 7 nbrs) "192.168.1.2".data cexU cexUState
    cexUSends (by decide) "192.168.2.2".data _

/-! ### C6 -/

/-- **C6.**  For a data message from a non-customer neighbor, any route
that `find_routes` returns has a customer peer (the policy filter
discarded everything else) and comes from the pre-filter candidate list;
and whenever no route survives — the empty candidate set included — the
router replies to `srcif` with a `no route` record whose `dst` is the
original message's `src` and whose `msg` is empty (the `noRoute`
constructor carries no payload). -/
theorem C6_data_policy (s : RState) (srcif : PyStr) (m : DataMsg)
    (hrel : relget s.relations srcif ≠ "cust".data) :
    (∀ r, find_routes s srcif m.dst = some r →
      relget s.relations r.peer = "cust".data
        ∧ r ∈ (find_valid_routes s.routes m.dst).2)
    ∧ (find_routes s srcif m.dst = none →
      handle_data_msg s srcif m = [(srcif, .noRoute (our_addr srcif) m.src)]) := by
  constructor
  · intro r hr
    simp only [find_routes] at hr
    rw [if_pos hrel] at hr
    have hmem : r ∈ List.filter
        (fun r => relget s.relations r.peer == "cust".data)
        (find_valid_routes s.routes m.dst).2 := by
      rcases hf : List.filter
          (fun r => relget s.relations r.peer == "cust".data)
          (find_valid_routes s.routes m.dst).2 with _ | ⟨b, t⟩
      · rw [hf] at hr
        exact Option.noConfusion hr
      · rw [hf] at hr
        simp only [List.head?, Option.some.injEq] at hr
        rw [hf]
        exact hr ▸ List.mem_cons_self b t
    rcases List.mem_filter.mp hmem with ⟨hval, hpred⟩
    exact ⟨beq_iff_eq.mp hpred, hval⟩
  · intro hnone
    unfold handle_data_msg
    rw [hnone]

/-- Witness for `C6_data_policy`: from the peer neighbor, the route chosen
for `10.0.0.5` exits via the customer, and the unroutable `99.0.0.1` gets
a `no route` reply. -/
theorem C6_witness :
    (relget s6.relations custRoute.peer = "cust".data
      ∧ custRoute ∈ (find_valid_routes s6.routes d6hit.dst).2)
    ∧ handle_data_msg s6 "192.168.1.2".data d6miss
        = [("192.168.1.2".data, .noRoute (our_addr "192.168.1.2".data) d6miss.src)] :=
  ⟨(C6_data_policy s6 "192.168.1.2".data d6hit (by decide)).1 custRoute (by decide),
   (C6_data_policy s6 "192.168.1.2".data d6miss (by decide)).2 (by decide)⟩

/-! ### C9 -/

/-- **C9, counterexample.**  A dump from `192.168.1.2` whose `dst` field is
`9.9.9.9` is answered with a `table` record whose `src` is `9.9.9.9` — the
code echoes the inbound `dst` — while the derived interface address toward
that neighbor is `192.168.1.1`. -/
theorem C9_counterexample :
    handle_dump_msg (initState 7 nbrs) cexDump
      = [("192.168.1.2".data, .table "9.9.9.9".data "192.168.1.2".data [])]
    ∧ our_addr "192.168.1.2".data = "192.168.1.1".data
    ∧ "9.9.9.9".data ≠ our_addr "192.168.1.2".data := by
  decide

/-- **C9, amended.**  On a dump the router replies to the requester
(`msg["src"]`) with a `table` record whose payload is every top-level
route with `child0`/`child1` stripped (exactly the attribute fields) and
whose `src` field echoes the inbound dump's `dst` field — which equals the
derived interface address only when the dump was addressed to it. -/
theorem C9_amended (s : RState) (m : DumpMsg) :
    handle_dump_msg s m
      = [(m.src, .table m.dst m.src (s.routes.map RouteRec.attrs))] := rfl

/-! ### Leaf conservation through coalescing -/

/-- Every route tree has at least one leaf. -/
theorem leaves_ne_nil : ∀ r : RouteRec, r.leaves ≠ []
  | .leaf _ => by simp [RouteRec.leaves]
  | .node _ c0 c1 => by
    simp only [RouteRec.leaves]
    intro h
    exact leaves_ne_nil c0 (List.append_eq_nil.mp h).1

/-- An aggregate's leaves are exactly the two children's leaves. -/
theorem aggregate_leaves {r1 r2 ag : RouteRec}
    (h : aggregate_routes r1 r2 = some ag) :
    ∀ a, a ∈ ag.leaves ↔ (a ∈ r1.leaves ∨ a ∈ r2.leaves) := by
  simp only [aggregate_routes] at h
  split at h
  · exact Option.noConfusion h
  · split at h
    · exact Option.noConfusion h
    · split at h <;> cases h <;> intro a <;>
        simp [RouteRec.leaves, List.mem_append] <;> tauto

/-- `list.remove` succeeds only when the element is present. -/
theorem py_remove_mem_ok :
    ∀ {l : List RouteRec} {x : RouteRec} {l' : List RouteRec},
      py_remove l x = .ok l' → x ∈ l := by
  intro l
  induction l with
  | nil => intro x l' h; exact Except.noConfusion h
  | cons y ys ih =>
    intro x l' h
    unfold py_remove at h
    by_cases hyx : y = x
    · exact hyx ▸ List.mem_cons_self y ys
    · rw [if_neg hyx] at h
      cases hrec : py_remove ys x with
      | error e => rw [hrec, except_bind_err] at h; exact Except.noConfusion h
      | ok ys' => exact List.mem_cons_of_mem y (ih hrec)

/-- Everything left after `list.remove` was in the original list. -/
theorem py_remove_subset :
    ∀ {l : List RouteRec} {x : RouteRec} {l' : List RouteRec},
      py_remove l x = .ok l' → ∀ v ∈ l', v ∈ l := by
  intro l
  induction l with
  | nil => intro x l' h; exact Except.noConfusion h
  | cons y ys ih =>
    intro x l' h v hv
    unfold py_remove at h
    by_cases hyx : y = x
    · rw [if_pos hyx] at h
      cases h
      exact List.mem_cons_of_mem y hv
    · rw [if_neg hyx] at h
      cases hrec : py_remove ys x with
      | error e => rw [hrec, except_bind_err] at h; exact Except.noConfusion h
      | ok ys' =>
        rw [hrec, except_bind_ok] at h
        cases h
        rcases List.mem_cons.mp hv with hv | hv
        · exact hv ▸ List.mem_cons_self y ys
        · exact List.mem_cons_of_mem y (ih hrec v hv)

/-- `list.remove` drops at most the removed value: anything else
survives. -/
theorem py_remove_mem :
    ∀ {l : List RouteRec} {x : RouteRec} {l' : List RouteRec},
      py_remove l x = .ok l' → ∀ v ∈ l, v ∈ l' ∨ v = x := by
  intro l
  induction l with
  | nil => intro x l' h; exact Except.noConfusion h
  | cons y ys ih =>
    intro x l' h v hv
    unfold py_remove at h
    by_cases hyx : y = x
    · rw [if_pos hyx] at h
      cases h
      rcases List.mem_cons.mp hv with hv | hv
      · exact Or.inr (hv.trans hyx)
      · exact Or.inl hv
    · rw [if_neg hyx] at h
      cases hrec : py_remove ys x with
      | error e => rw [hrec, except_bind_err] at h; exact Except.noConfusion h
      | ok ys' =>
        rw [hrec, except_bind_ok] at h
        cases h
        rcases List.mem_cons.mp hv with hv | hv
        · exact Or.inl (hv ▸ List.mem_cons_self y ys')
        · rcases ih hrec v hv with h' | h'
          · exact Or.inl (List.mem_cons_of_mem y h')
          · exact Or.inr h'

/-- Every pair collected by a `coalesce` pass really aggregates to the
recorded result. -/
theorem coalesce_pairs_spec :
    ∀ routes : List RouteRec, ∀ p ∈ coalesce_pairs routes,
      aggregate_routes p.1 p.2.1 = some p.2.2 := by
  intro routes
  induction routes with
  | nil => intro p hp; exact absurd hp (List.not_mem_nil p)
  | cons r rest ih =>
    intro p hp
    rw [coalesce_pairs] at hp
    rcases List.mem_append.mp hp with hp | hp
    · rcases List.mem_filterMap.mp hp with ⟨r2, _hr2, heq⟩
      rcases Option.map_eq_some'.mp heq with ⟨ag, hag, hpe⟩
      rw [← hpe]
      exact hag
    · exact ih p hp

/-- Applying a list of collected aggregations preserves the leaves of the
table (forward direction). -/
theorem apply_aggregates_leafin_forward :
    ∀ (prs : List (RouteRec × RouteRec × RouteRec)) (routes out : List RouteRec),
      apply_aggregates prs routes = .ok out →
      (∀ p ∈ prs, aggregate_routes p.1 p.2.1 = some p.2.2) →
      ∀ a, LeafIn a routes → LeafIn a out := by
  intro prs
  induction prs with
  | nil =>
    intro routes out h _ a ha
    cases h
    exact ha
  | cons p rest ih =>
    rcases p with ⟨r1, r2, ag⟩
    intro routes out h hprs a ha
    unfold apply_aggregates at h
    cases h1 : py_remove routes r1 with
    | error e => rw [h1, except_bind_err] at h; exact Except.noConfusion h
    | ok routes1 =>
      rw [h1, except_bind_ok] at h
      cases h2 : py_remove routes1 r2 with
      | error e => rw [h2, except_bind_err] at h; exact Except.noConfusion h
      | ok routes2 =>
        rw [h2, except_bind_ok] at h
        have hag := hprs (r1, r2, ag) (List.mem_cons_self _ _)
        refine ih (routes2 ++ [ag]) out h
          (fun q hq => hprs q (List.mem_cons_of_mem _ hq)) a ?_
        rcases ha with ⟨r, hr, hleaf⟩
        rcases py_remove_mem h1 r hr with hr1 | hr1
        · rcases py_remove_mem h2 r hr1 with hr2 | hr2
          · exact ⟨r, List.mem_append_left _ hr2, hleaf⟩
          · refine ⟨ag, List.mem_append_right _ (List.mem_singleton_self ag), ?_⟩
            exact (aggregate_leaves hag a).mpr (Or.inr (hr2 ▸ hleaf))
        · refine ⟨ag, List.mem_append_right _ (List.mem_singleton_self ag), ?_⟩
          exact (aggregate_leaves hag a).mpr (Or.inl (hr1 ▸ hleaf))

/-- Applying a list of collected aggregations preserves the leaves of the
table (backward direction). -/
theorem apply_aggregates_leafin_backward :
    ∀ (prs : List (RouteRec × RouteRec × RouteRec)) (routes out : List RouteRec),
      apply_aggregates prs routes = .ok out →
      (∀ p ∈ prs, aggregate_routes p.1 p.2.1 = some p.2.2) →
      ∀ a, LeafIn a out → LeafIn a routes := by
  intro prs
  induction prs with
  | nil =>
    intro routes out h _ a ha
    cases h
    exact ha
  | cons p rest ih =>
    rcases p with ⟨r1, r2, ag⟩
    intro routes out h hprs a ha
    unfold apply_aggregates at h
    cases h1 : py_remove routes r1 with
    | error e => rw [h1, except_bind_err] at h; exact Except.noConfusion h
    | ok routes1 =>
      rw [h1, except_bind_ok] at h
      cases h2 : py_remove routes1 r2 with
      | error e => rw [h2, except_bind_err] at h; exact Except.noConfusion h
      | ok routes2 =>
        rw [h2, except_bind_ok] at h
        have hag := hprs (r1, r2, ag) (List.mem_cons_self _ _)
        have ha' := ih (routes2 ++ [ag]) out h
          (fun q hq => hprs q (List.mem_cons_of_mem _ hq)) a ha
        rcases ha' with ⟨r, hr, hleaf⟩
        rcases List.mem_append.mp hr with hr' | hr'
        · exact ⟨r, py_remove_subset h1 r (py_remove_subset h2 r hr'), hleaf⟩
        · have hrag : r = ag := List.mem_singleton.mp hr'
          rcases (aggregate_leaves hag a).mp (hrag ▸ hleaf) with hl | hl
          · exact ⟨r1, py_remove_mem_ok h1, hl⟩
          · exact ⟨r2, py_remove_subset h1 r2 (py_remove_mem_ok h2), hl⟩

/-- A successful `coalesce` run preserves the set of table leaves. -/
theorem coalesce_fuel_leafin :
    ∀ (fuel : Nat) (routes out : List RouteRec),
      coalesce_fuel fuel routes = .ok out →
      ∀ a, LeafIn a out ↔ LeafIn a routes := by
  intro fuel
  induction fuel with
  | zero => intro routes out h; exact Except.noConfusion h
  | succ n ih =>
    intro routes out h a
    rw [coalesce_fuel] at h
    by_cases hp : coalesce_pairs routes = []
    · rw [if_pos hp] at h
      cases h
      exact Iff.rfl
    · rw [if_neg hp] at h
      cases happ : apply_aggregates (coalesce_pairs routes) routes with
      | error e => rw [happ, except_bind_err] at h; exact Except.noConfusion h
      | ok routes' =>
        rw [happ, except_bind_ok] at h
        constructor
        · intro ha
          exact apply_aggregates_leafin_backward _ _ _ happ
            (coalesce_pairs_spec routes) a ((ih routes' out h a).mp ha)
        · intro ha
          exact (ih routes' out h a).mpr
            (apply_aggregates_leafin_forward _ _ _ happ
              (coalesce_pairs_spec routes) a ha)

/-- A successful update handling adds exactly the new leaf to the
table's leaf set. -/
theorem handle_update_leafin (s : RState) (srcif : PyStr) (m : UpdateMsg)
    (s' : RState) (sends : List (PyStr × OutMsg))
    (h : handle_update_msg s srcif m = .ok (s', sends)) :
    ∀ a, LeafIn a s'.routes ↔ (LeafIn a s.routes ∨ a = (new_route_of m).attrs) := by
  unfold handle_update_msg at h
  cases hc : coalesce (s.routes ++ [new_route_of m]) with
  | error e => rw [hc, except_bind_err] at h; exact Except.noConfusion h
  | ok routes' =>
    rw [hc, except_bind_ok] at h
    simp only [Except.ok.injEq, Prod.mk.injEq] at h
    have hroutes : s'.routes = routes' := by rw [← h.1]
    intro a
    rw [hroutes, coalesce_fuel_leafin _ _ _ hc a]
    constructor
    · intro ⟨r, hr, hleaf⟩
      rcases List.mem_append.mp hr with hr' | hr'
      · exact Or.inl ⟨r, hr', hleaf⟩
      · have : r = new_route_of m := List.mem_singleton.mp hr'
        subst this
        cases m
        simp [new_route_of, RouteRec.leaves, RouteRec.attrs] at hleaf ⊢
        exact Or.inr hleaf
    · intro ha
      rcases ha with ⟨r, hr, hleaf⟩ | ha
      · exact ⟨r, List.mem_append_left _ hr, hleaf⟩
      · refine ⟨new_route_of m, List.mem_append_right _ (List.mem_singleton_self _), ?_⟩
        cases m
        simp [new_route_of, RouteRec.leaves, RouteRec.attrs, ha]

/-! ### C8 -/

/-- **C8, counterexample.**  The netmask `0.255.0.0` is non-contiguous,
yet `get_netmask_length` does not fail — it returns the 1-bit count 8 —
and handling the update `cexNC` succeeds and *modifies* the routing table,
inserting the route instead of dropping the update. -/
theorem C8_counterexample :
    isContiguousMask "0.255.0.0".data = false
    ∧ get_netmask_length "0.255.0.0".data = 8
    ∧ handle_update_msg (initState 7 nbrs) "192.168.1.2".data cexNC = .ok (ncState, ncSends)
    ∧ ncState.routes = [new_route_of cexNC]
    ∧ ncState.routes ≠ (initState 7 nbrs).routes := by
  decide

/-- **C8, amended.**  Prefix-length computation never fails: it returns
the count of 1-bits of any netmask, contiguous or not, and an update with
a non-contiguous netmask is processed like any other — whenever handling
succeeds, the new leaf (with its non-contiguous netmask) is present in the
resulting table's forest and all previously present leaves survive. -/
theorem C8_amended (s : RState) (srcif : PyStr) (m : UpdateMsg)
    (s' : RState) (sends : List (PyStr × OutMsg))
    (h : handle_update_msg s srcif m = .ok (s', sends)) :
    LeafIn ⟨m.network, m.netmask, m.src, m.localpref, m.selfOrigin, m.ASPath, m.origin⟩ s'.routes
    ∧ ∀ a, LeafIn a s.routes → LeafIn a s'.routes := by
  constructor
  · refine (handle_update_leafin s srcif m s' sends h _).mpr (Or.inr ?_)
    cases m
    rfl
  · intro a ha
    exact (handle_update_leafin s srcif m s' sends h a).mpr (Or.inl ha)

/-- Witness for `C8_amended` at the non-contiguous update `cexNC`. -/
theorem C8_amended_witness :
    LeafIn ⟨cexNC.network, cexNC.netmask, cexNC.src, cexNC.localpref,
      cexNC.selfOrigin, cexNC.ASPath, cexNC.origin⟩ ncState.routes :=
  (C8_amended (initState 7 nbrs) "192.168.1.2".data cexNC ncState ncSends (by decide)).1

/-! ### C1: the cascade order -/

/-- The cascade never prefers a route to itself. -/
theorem cascade_irrefl (a : RouteRec) : ¬ spec_cascade_prefers a a := by
  unfold spec_cascade_prefers
  rintro (h | ⟨-, ⟨h1, h2⟩ | ⟨-, h | ⟨-, h | ⟨-, h⟩⟩⟩⟩)
  · exact lt_irrefl _ h
  · rw [h2] at h1
    exact absurd h1 (by decide)
  · exact lt_irrefl _ h
  · exact lt_irrefl _ h
  · exact lt_irrefl _ h

/-- The cascade order is transitive. -/
theorem cascade_trans {a b c : RouteRec}
    (h1 : spec_cascade_prefers a b) (h2 : spec_cascade_prefers b c) :
    spec_cascade_prefers a c := by
  unfold spec_cascade_prefers at h1 h2 ⊢
  rcases h1 with h1 | ⟨e1, h1⟩
  · rcases h2 with h2 | ⟨e2, h2⟩
    · exact Or.inl (lt_trans h2 h1)
    · exact Or.inl (by omega)
  · rcases h2 with h2 | ⟨e2, h2⟩
    · exact Or.inl (by omega)
    · refine Or.inr ⟨e1.trans e2, ?_⟩
      rcases h1 with ⟨hb0, ha1⟩ | ⟨f1, h1⟩
      · rcases h2 with ⟨hc0, hb1⟩ | ⟨f2, h2⟩
        · rw [hb1] at hb0
          exact absurd hb0 (by decide)
        · exact Or.inl ⟨f2 ▸ hb0, ha1⟩
      · rcases h2 with ⟨hc0, hb1⟩ | ⟨f2, h2⟩
        · exact Or.inl ⟨hc0, f1.trans hb1⟩
        · refine Or.inr ⟨f1.trans f2, ?_⟩
          rcases h1 with h1 | ⟨g1, h1⟩
          · rcases h2 with h2 | ⟨g2, h2⟩
            · exact Or.inl (lt_trans h1 h2)
            · exact Or.inl (by omega)
          · rcases h2 with h2 | ⟨g2, h2⟩
            · exact Or.inl (by omega)
            · refine Or.inr ⟨g1.trans g2, ?_⟩
              rcases h1 with h1 | ⟨k1, h1⟩
              · rcases h2 with h2 | ⟨k2, h2⟩
                · exact Or.inl (lt_trans h1 h2)
                · exact Or.inl (k2 ▸ h1)
              · rcases h2 with h2 | ⟨k2, h2⟩
                · refine Or.inl ?_
                  rw [k1]
                  exact h2
                · exact Or.inr ⟨k1.trans k2, lt_trans h1 h2⟩

/-- The cascade order is asymmetric. -/
theorem cascade_asymm {a b : RouteRec} (h : spec_cascade_prefers a b) :
    ¬ spec_cascade_prefers b a :=
  fun h' => cascade_irrefl a (cascade_trans h h')

/-- The source's origin test is exactly a strict rank comparison for
legal origin values. -/
theorem origin_cond_iff {r v : PyStr} (hr : validOrigin r) (hv : validOrigin v) :
    ((r = "IGP".data ∧ v ≠ "IGP".data) ∨ (r = "EGP".data ∧ v = "UNK".data))
      ↔ originRank r < originRank v := by
  rcases hr with h | h | h <;> rcases hv with g | g | g <;> rw [h, g] <;> decide

/-- Equal ranks mean equal origins, for legal origin values. -/
theorem originRank_inj {r v : PyStr} (hr : validOrigin r) (hv : validOrigin v)
    (h : originRank r = originRank v) : r = v := by
  rcases hr with h1 | h1 | h1 <;> rcases hv with h2 | h2 | h2 <;>
    rw [h1, h2] at h ⊢ <;> first | rfl | exact absurd h (by decide)

/-- Two-route totality of the cascade when all earlier fields tie. -/
theorem cascade_total_aux {a b : RouteRec}
    (ha : validOrigin a.origin) (hb : validOrigin b.origin)
    (hpeer : a.peer ≠ b.peer) (hlp : a.localpref = b.localpref)
    (hso : a.selfOrigin = b.selfOrigin) :
    spec_cascade_prefers a b ∨ spec_cascade_prefers b a := by
  unfold spec_cascade_prefers
  rcases Nat.lt_trichotomy a.ASPath.length b.ASPath.length with h | h | h
  · exact Or.inl (Or.inr ⟨hlp, Or.inr ⟨hso, Or.inl h⟩⟩)
  · rcases Nat.lt_trichotomy (originRank a.origin) (originRank b.origin) with h2 | h2 | h2
    · exact Or.inl (Or.inr ⟨hlp, Or.inr ⟨hso, Or.inr ⟨h, Or.inl h2⟩⟩⟩)
    · have horig : a.origin = b.origin := originRank_inj ha hb h2
      rcases lt_or_gt_of_ne hpeer with h3 | h3
      · exact Or.inl (Or.inr ⟨hlp, Or.inr ⟨hso, Or.inr ⟨h, Or.inr ⟨horig, h3⟩⟩⟩⟩)
      · exact Or.inr (Or.inr ⟨hlp.symm, Or.inr ⟨hso.symm, Or.inr ⟨h.symm, Or.inr ⟨horig.symm, h3⟩⟩⟩⟩)
    · exact Or.inr (Or.inr ⟨hlp.symm, Or.inr ⟨hso.symm, Or.inr ⟨h.symm, Or.inl h2⟩⟩⟩)
  · exact Or.inr (Or.inr ⟨hlp.symm, Or.inr ⟨hso.symm, Or.inl h⟩⟩)

/-- The cascade is total on routes with distinct peers and legal
origins. -/
theorem cascade_total {a b : RouteRec}
    (ha : validOrigin a.origin) (hb : validOrigin b.origin)
    (hpeer : a.peer ≠ b.peer) :
    spec_cascade_prefers a b ∨ spec_cascade_prefers b a := by
  rcases Nat.lt_trichotomy a.localpref b.localpref with h | h | h
  · exact Or.inr (Or.inl h)
  · cases hsa : a.selfOrigin <;> cases hsb : b.selfOrigin
    · exact cascade_total_aux ha hb hpeer h (hsa.trans hsb.symm)
    · exact Or.inr (Or.inr ⟨h.symm, Or.inl ⟨hsa, hsb⟩⟩)
    · exact Or.inl (Or.inr ⟨h, Or.inl ⟨hsb, hsa⟩⟩)
    · exact cascade_total_aux ha hb hpeer h (hsa.trans hsb.symm)
  · exact Or.inl (Or.inl h)

/-! ### C1: characterizing one scan step -/

/-- A non-candidate leaves the scan state unchanged. -/
theorem frStep_no_match (dest : PyStr) (st : Int × List RouteRec) (r : RouteRec)
    (h : ¬ matchesDest dest r) : frStep dest st r = st := by
  simp only [frStep]
  rw [if_neg h]

/-- A candidate with a strictly longer prefix resets the scan state. -/
theorem frStep_new_len (dest : PyStr) (st : Int × List RouteRec) (r : RouteRec)
    (hm : matchesDest dest r) (hlt : st.1 < (get_netmask_length r.netmask : Int)) :
    frStep dest st r = ((get_netmask_length r.netmask : Int), [r]) := by
  simp only [frStep]
  rw [if_pos hm, if_pos hlt]

/-- A candidate with a strictly shorter prefix is skipped. -/
theorem frStep_short (dest : PyStr) (st : Int × List RouteRec) (r : RouteRec)
    (hm : matchesDest dest r) (hgt : (get_netmask_length r.netmask : Int) < st.1) :
    frStep dest st r = st := by
  simp only [frStep]
  rw [if_pos hm, if_neg (by omega), if_neg (by omega)]

/-- A candidate tying the current prefix length replaces the held route
exactly when the spec's cascade prefers it (for legal origins).  This is
the refinement bridge between the source's nested comparison chain and
the spec's ordered cascade. -/
theorem frStep_tie (dest : PyStr) (n : Int) (t : List RouteRec) (r v0 : RouteRec)
    (hm : matchesDest dest r) (hn : n = (get_netmask_length r.netmask : Int))
    (hvr : validOrigin r.origin) (hv0 : validOrigin v0.origin) :
    frStep dest (n, v0 :: t) r
      = if spec_cascade_prefers r v0
          then ((get_netmask_length r.netmask : Int), [r]) else (n, v0 :: t) := by
  simp only [frStep]
  rw [if_pos hm, if_neg (by omega : ¬ n < (get_netmask_length r.netmask : Int)),
    if_pos hn]
  by_cases h1 : v0.localpref < r.localpref
  · rw [if_pos h1,
      if_pos (show spec_cascade_prefers r v0 from Or.inl h1)]
  · rw [if_neg h1]
    by_cases h2 : v0.localpref = r.localpref
    · rw [if_pos h2]
      by_cases h3 : v0.selfOrigin = false ∧ r.selfOrigin = true
      · rw [if_pos h3,
          if_pos (show spec_cascade_prefers r v0 from Or.inr ⟨h2.symm, Or.inl h3⟩)]
      · rw [if_neg h3]
        by_cases h4 : v0.selfOrigin = r.selfOrigin
        · rw [if_pos h4]
          by_cases h5 : r.ASPath.length < v0.ASPath.length
          · rw [if_pos h5,
              if_pos (show spec_cascade_prefers r v0 from
                Or.inr ⟨h2.symm, Or.inr ⟨h4.symm, Or.inl h5⟩⟩)]
          · rw [if_neg h5]
            by_cases h6 : v0.ASPath.length = r.ASPath.length
            · rw [if_pos h6]
              by_cases h7 : (r.origin = "IGP".data ∧ v0.origin ≠ "IGP".data)
                  ∨ (r.origin = "EGP".data ∧ v0.origin = "UNK".data)
              · have hrank := (origin_cond_iff hvr hv0).mp h7
                rw [if_pos h7,
                  if_pos (show spec_cascade_prefers r v0 from
                    Or.inr ⟨h2.symm, Or.inr ⟨h4.symm, Or.inr ⟨h6.symm, Or.inl hrank⟩⟩⟩)]
              · rw [if_neg h7]
                by_cases h8 : r.origin = v0.origin
                · rw [if_pos h8]
                  by_cases h9 : r.peer < v0.peer
                  · rw [if_pos h9,
                      if_pos (show spec_cascade_prefers r v0 from
                        Or.inr ⟨h2.symm, Or.inr ⟨h4.symm, Or.inr ⟨h6.symm,
                          Or.inr ⟨h8, h9⟩⟩⟩⟩)]
                  · rw [if_neg h9, if_neg h9,
                      if_neg (show ¬ spec_cascade_prefers r v0 by
                        rintro (hc | ⟨-, hc | ⟨-, hc | ⟨-, hc | ⟨-, hc⟩⟩⟩⟩)
                        · exact h1 hc
                        · exact h3 hc
                        · exact h5 hc
                        · exact h7 ((origin_cond_iff hvr hv0).mpr hc)
                        · exact h9 hc)]
                · rw [if_neg h8,
                    if_neg (show ¬ spec_cascade_prefers r v0 by
                      rintro (hc | ⟨-, hc | ⟨-, hc | ⟨-, hc | ⟨hc, -⟩⟩⟩⟩)
                      · exact h1 hc
                      · exact h3 hc
                      · exact h5 hc
                      · exact h7 ((origin_cond_iff hvr hv0).mpr hc)
                      · exact h8 hc)]
            · rw [if_neg h6,
                if_neg (show ¬ spec_cascade_prefers r v0 by
                  rintro (hc | ⟨-, hc | ⟨-, hc | ⟨hc, -⟩⟩⟩)
                  · exact h1 hc
                  · exact h3 hc
                  · exact h5 hc
                  · exact h6 hc.symm)]
        · rw [if_neg h4,
            if_neg (show ¬ spec_cascade_prefers r v0 by
              rintro (hc | ⟨-, hc | ⟨hc, -⟩⟩)
              · exact h1 hc
              · exact h3 hc
              · exact h4 hc.symm)]
    · rw [if_neg h2,
        if_neg (show ¬ spec_cascade_prefers r v0 by
          rintro (hc | ⟨hc, -⟩)
          · exact h1 hc
          · exact h2 hc.symm)]

/-! ### C1: the scan invariant -/

/-- `distinctPeersAt` restricts along sublists. -/
theorem distinctPeersAt_mono {dest : PyStr} {seen seen' : List RouteRec} {n : Nat}
    (hsub : ∀ c ∈ seen, c ∈ seen') (h : distinctPeersAt dest seen' n) :
    distinctPeersAt dest seen n :=
  fun c1 h1 c2 h2 => h c1 (hsub c1 h1) c2 (hsub c2 h2)

/-- One scan step preserves the invariant. -/
theorem scan_inv_step (dest : PyStr) (seen : List RouteRec)
    (st : Int × List RouteRec) (r : RouteRec)
    (hvs : ∀ c ∈ seen, validOrigin c.origin) (hvr : validOrigin r.origin)
    (hinv : scanInv dest seen st) :
    scanInv dest (seen ++ [r]) (frStep dest st r) := by
  by_cases hm : matchesDest dest r
  case neg =>
    rw [frStep_no_match dest st r hm]
    rcases hinv with ⟨hst, hnone⟩ | ⟨b, hst, hb, hmb, hmax, hbeats⟩
    · refine Or.inl ⟨hst, fun c hc => ?_⟩
      rcases List.mem_append.mp hc with hc | hc
      · exact hnone c hc
      · rw [List.mem_singleton.mp hc]
        exact hm
    · refine Or.inr ⟨b, hst, List.mem_append_left _ hb, hmb, fun c hc hmc => ?_, ?_⟩
      · rcases List.mem_append.mp hc with hc | hc
        · exact hmax c hc hmc
        · exact absurd hmc (List.mem_singleton.mp hc ▸ hm)
      · intro hdp c hc hmc hlc hne
        rcases List.mem_append.mp hc with hc | hc
        · exact hbeats (distinctPeersAt_mono (fun x hx => List.mem_append_left _ hx) hdp)
            c hc hmc hlc hne
        · exact absurd hmc (List.mem_singleton.mp hc ▸ hm)
  case pos =>
    rcases hinv with ⟨hst, hnone⟩ | ⟨b, hst, hb, hmb, hmax, hbeats⟩
    · subst hst
      rw [frStep_new_len dest _ r hm (by
        have := Int.natCast_nonneg (get_netmask_length r.netmask)
        omega)]
      refine Or.inr ⟨r, rfl, List.mem_append_right _ (List.mem_singleton_self r),
        hm, fun c hc hmc => ?_, ?_⟩
      · rcases List.mem_append.mp hc with hc | hc
        · exact absurd hmc (hnone c hc)
        · rw [List.mem_singleton.mp hc]
      · intro _ c hc hmc hlc hne
        rcases List.mem_append.mp hc with hc | hc
        · exact absurd hmc (hnone c hc)
        · exact absurd (List.mem_singleton.mp hc) hne
    · subst hst
      rcases Nat.lt_trichotomy (get_netmask_length r.netmask)
          (get_netmask_length b.netmask) with hlt | heq | hgt
      · rw [frStep_short dest _ r hm (by
          show (get_netmask_length r.netmask : Int) < (get_netmask_length b.netmask : Int)
          exact_mod_cast hlt)]
        refine Or.inr ⟨b, rfl, List.mem_append_left _ hb, hmb, fun c hc hmc => ?_, ?_⟩
        · rcases List.mem_append.mp hc with hc | hc
          · exact hmax c hc hmc
          · rw [List.mem_singleton.mp hc]
            exact le_of_lt hlt
        · intro hdp c hc hmc hlc hne
          rcases List.mem_append.mp hc with hc | hc
          · exact hbeats (distinctPeersAt_mono (fun x hx => List.mem_append_left _ hx) hdp)
              c hc hmc hlc hne
          · rw [List.mem_singleton.mp hc] at hlc
            omega
      · rw [frStep_tie dest _ [] r b hm (by exact_mod_cast heq.symm) hvr (hvs b hb)]
        by_cases hp : spec_cascade_prefers r b
        · rw [if_pos hp]
          refine Or.inr ⟨r, rfl, List.mem_append_right _ (List.mem_singleton_self r),
            hm, fun c hc hmc => ?_, ?_⟩
          · rcases List.mem_append.mp hc with hc | hc
            · have := hmax c hc hmc
              omega
            · rw [List.mem_singleton.mp hc]
          · intro hdp c hc hmc hlc hne
            rcases List.mem_append.mp hc with hc | hc
            · have hdp' : distinctPeersAt dest seen (get_netmask_length b.netmask) := by
                rw [← heq]
                exact distinctPeersAt_mono (fun x hx => List.mem_append_left _ hx) hdp
              by_cases hcb : c = b
              · rw [hcb]
                exact hp
              · exact cascade_trans hp (hbeats hdp' c hc hmc (by omega) hcb)
            · exact absurd (List.mem_singleton.mp hc) hne
        · rw [if_neg hp]
          refine Or.inr ⟨b, rfl, List.mem_append_left _ hb, hmb, fun c hc hmc => ?_, ?_⟩
          · rcases List.mem_append.mp hc with hc | hc
            · exact hmax c hc hmc
            · rw [List.mem_singleton.mp hc]
              exact le_of_eq heq
          · intro hdp c hc hmc hlc hne
            rcases List.mem_append.mp hc with hc | hc
            · exact hbeats (distinctPeersAt_mono (fun x hx => List.mem_append_left _ hx) hdp)
                c hc hmc hlc hne
            · obtain rfl := List.mem_singleton.mp hc
              have hpeer : b.peer ≠ c.peer :=
                hdp b (List.mem_append_left _ hb) c
                  (List.mem_append_right _ (List.mem_singleton_self c)) hmb hm rfl heq
                  (fun hbc => hne hbc.symm)
              rcases cascade_total (hvs b hb) hvr hpeer with h | h
              · exact h
              · exact absurd h hp
      · rw [frStep_new_len dest _ r hm (by
          show (get_netmask_length b.netmask : Int) < (get_netmask_length r.netmask : Int)
          exact_mod_cast hgt)]
        refine Or.inr ⟨r, rfl, List.mem_append_right _ (List.mem_singleton_self r),
          hm, fun c hc hmc => ?_, ?_⟩
        · rcases List.mem_append.mp hc with hc | hc
          · have := hmax c hc hmc
            omega
          · rw [List.mem_singleton.mp hc]
        · intro hdp c hc hmc hlc hne
          rcases List.mem_append.mp hc with hc | hc
          · have := hmax c hc hmc
            omega
          · exact absurd (List.mem_singleton.mp hc) hne

/-- The invariant holds after folding the scan over any suffix. -/
theorem scan_inv_fold (dest : PyStr) :
    ∀ (l seen : List RouteRec) (st : Int × List RouteRec),
      (∀ c ∈ seen, validOrigin c.origin) → (∀ c ∈ l, validOrigin c.origin) →
      scanInv dest seen st →
      scanInv dest (seen ++ l) (l.foldl (frStep dest) st) := by
  intro l
  induction l with
  | nil =>
    intro seen st hvs _ hinv
    rw [List.append_nil]
    exact hinv
  | cons r l' ih =>
    intro seen st hvs hvl hinv
    rw [List.foldl_cons, List.append_cons]
    exact ih (seen ++ [r]) (frStep dest st r)
      (fun c hc => (List.mem_append.mp hc).elim (hvs c)
        (fun h => List.mem_singleton.mp h ▸ hvl r (List.mem_cons_self r l')))
      (fun c hc => hvl c (List.mem_cons_of_mem r hc))
      (scan_inv_step dest seen st r hvs (hvl r (List.mem_cons_self r l')) hinv)

/-! ### C1 -/

/-- **C1.**  If the table has at least one route matching `dst`, all
origins are legal, and the candidates tied for the maximum prefix length
have pairwise distinct peers, then the pre-policy-filter scan of
`find_routes` holds exactly one route `b`; `b` is a maximum-prefix-length
candidate, it strictly beats every other such candidate under the spec's
ordered cascade (highest localpref, then selfOrigin, then shortest ASPath,
then IGP > EGP > UNK, then lowest peer), and it is the unique such
survivor. -/
theorem C1_find_routes_cascade (routes : List RouteRec) (dest : PyStr)
    (hcand : ∃ r ∈ routes, matchesDest dest r)
    (hval : ∀ r ∈ routes, validOrigin r.origin)
    (hdp : ∀ c1 ∈ routes, ∀ c2 ∈ routes, candAtMax routes dest c1 →
      candAtMax routes dest c2 → c1 ≠ c2 → c1.peer ≠ c2.peer) :
    ∃ b, (find_valid_routes routes dest).2 = [b]
      ∧ candAtMax routes dest b
      ∧ (∀ c, candAtMax routes dest c → c ≠ b → spec_cascade_prefers b c)
      ∧ (∀ c, candAtMax routes dest c →
          (∀ c', candAtMax routes dest c' → c' ≠ c → spec_cascade_prefers c c') →
          c = b) := by
  have hinv : scanInv dest ([] ++ routes) (routes.foldl (frStep dest) (-1, [])) :=
    scan_inv_fold dest routes [] (-1, [])
      (fun c hc => absurd hc (List.not_mem_nil c)) hval
      (Or.inl ⟨rfl, fun c hc => absurd hc (List.not_mem_nil c)⟩)
  rw [List.nil_append] at hinv
  rcases hinv with ⟨-, hnone⟩ | ⟨b, hst, hb, hmb, hmax, hbeats⟩
  · rcases hcand with ⟨r, hr, hmr⟩
    exact absurd hmr (hnone r hr)
  · have hbmax : candAtMax routes dest b := ⟨hb, hmb, hmax⟩
    have hdp' : distinctPeersAt dest routes (get_netmask_length b.netmask) := by
      intro c1 h1 c2 h2 hm1 hm2 hl1 hl2 hne
      have hc1max : candAtMax routes dest c1 :=
        ⟨h1, hm1, fun c hc hmc => hl1 ▸ hmax c hc hmc⟩
      have hc2max : candAtMax routes dest c2 :=
        ⟨h2, hm2, fun c hc hmc => hl2 ▸ hmax c hc hmc⟩
      exact hdp c1 h1 c2 h2 hc1max hc2max hne
    have hbeats' : ∀ c, candAtMax routes dest c → c ≠ b → spec_cascade_prefers b c := by
      intro c hc hne
      have hlc : get_netmask_length c.netmask = get_netmask_length b.netmask :=
        le_antisymm (hmax c hc.1 hc.2.1) (hc.2.2 b hb hmb)
      exact hbeats hdp' c hc.1 hc.2.1 hlc hne
    refine ⟨b, ?_, hbmax, hbeats', ?_⟩
    · unfold find_valid_routes
      rw [hst]
    · intro c hc hcbeats
      by_contra hne
      exact cascade_asymm (hcbeats b hbmax (fun hbc => hne hbc.symm)) (hbeats' c hc hne)

/-- Witness for `C1_find_routes_cascade` on a two-route table. -/
theorem C1_witness :
    ∃ b, (find_valid_routes [w1t1, w1t2] "10.0.0.5".data).2 = [b]
      ∧ candAtMax [w1t1, w1t2] "10.0.0.5".data b
      ∧ (∀ c, candAtMax [w1t1, w1t2] "10.0.0.5".data c → c ≠ b →
          spec_cascade_prefers b c)
      ∧ (∀ c, candAtMax [w1t1, w1t2] "10.0.0.5".data c →
          (∀ c', candAtMax [w1t1, w1t2] "10.0.0.5".data c' → c' ≠ c →
            spec_cascade_prefers c c') → c = b) :=
  C1_find_routes_cascade [w1t1, w1t2] "10.0.0.5".data (by decide) (by decide)
    (by decide)

/-! ### C4: route-tree lemmas -/

/-- Every tree is one of its own subtrees. -/
theorem subtrees_self : ∀ r : RouteRec, r ∈ r.subtrees
  | .leaf a => by simp [RouteRec.subtrees]
  | .node a c0 c1 => by simp [RouteRec.subtrees]

/-- Subtree membership is transitive. -/
theorem subtrees_trans : ∀ {v w u : RouteRec},
    v ∈ w.subtrees → w ∈ u.subtrees → v ∈ u.subtrees := by
  intro v w u
  induction u with
  | leaf a =>
    intro hvw hwu
    simp [RouteRec.subtrees] at hwu
    rw [hwu] at hvw
    simpa [RouteRec.subtrees] using hvw
  | node a c0 c1 ih0 ih1 =>
    intro hvw hwu
    simp only [RouteRec.subtrees, List.mem_cons, List.mem_append] at hwu ⊢
    rcases hwu with hwu | hwu | hwu
    · rw [hwu] at hvw
      simpa [RouteRec.subtrees] using hvw
    · exact Or.inr (Or.inl (ih0 hvw hwu))
    · exact Or.inr (Or.inr (ih1 hvw hwu))

/-- A subtree's leaves are among the whole tree's leaves. -/
theorem leaves_subtree : ∀ {v r : RouteRec} {a : RouteAttrs},
    v ∈ r.subtrees → a ∈ v.leaves → a ∈ r.leaves := by
  intro v r
  induction r with
  | leaf b =>
    intro a hv ha
    simp [RouteRec.subtrees] at hv
    rw [hv] at ha
    exact ha
  | node b c0 c1 ih0 ih1 =>
    intro a hv ha
    simp only [RouteRec.subtrees, List.mem_cons, List.mem_append] at hv
    simp only [RouteRec.leaves, List.mem_append]
    rcases hv with hv | hv | hv
    · rw [hv] at ha
      simpa [RouteRec.leaves] using ha
    · exact Or.inl (ih0 hv ha)
    · exact Or.inr (ih1 hv ha)

/-- A match inside a subtree is a match inside the whole tree. -/
theorem wrMatched_subtree {srcif : PyStr} {d : Descriptor} :
    ∀ {v r : RouteRec}, v ∈ r.subtrees → wrMatched srcif d v = true →
      wrMatched srcif d r = true := by
  intro v r
  induction r with
  | leaf b =>
    intro hv hm
    simp [RouteRec.subtrees] at hv
    rw [hv] at hm
    exact hm
  | node b c0 c1 ih0 ih1 =>
    intro hv hm
    simp only [RouteRec.subtrees, List.mem_cons, List.mem_append] at hv
    simp only [wrMatched, Bool.or_eq_true]
    rcases hv with hv | hv | hv
    · rw [hv] at hm
      simpa [wrMatched, Bool.or_eq_true] using hm
    · exact Or.inl (Or.inr (ih0 hv hm))
    · exact Or.inr (ih1 hv hm)

/-- A tree containing a leaf with the descriptor's identity matches. -/
theorem leaf_wrMatched {srcif : PyStr} {d : Descriptor} {a : RouteAttrs} :
    ∀ {r : RouteRec}, a ∈ r.leaves → a.network = d.network →
      a.netmask = d.netmask → a.peer = srcif → wrMatched srcif d r = true := by
  intro r
  induction r with
  | leaf b =>
    intro ha h1 h2 h3
    simp [RouteRec.leaves] at ha
    rw [ha] at h1 h2 h3
    simp [wrMatched, h1, h2, h3]
  | node b c0 c1 ih0 ih1 =>
    intro ha h1 h2 h3
    simp only [RouteRec.leaves, List.mem_append] at ha
    simp only [wrMatched, Bool.or_eq_true]
    rcases ha with ha | ha
    · exact Or.inl (Or.inr (ih0 ha h1 h2 h3))
    · exact Or.inr (ih1 ha h1 h2 h3)

/-! ### C4: `withdraw_route` -/

/-- The match result of `withdraw_route` is `wrMatched`, independent of
the threaded table. -/
theorem withdraw_route_fst (srcif : PyStr) (d : Descriptor) :
    ∀ (r : RouteRec) (rs : List RouteRec),
      (withdraw_route srcif d r rs).1 = wrMatched srcif d r := by
  intro r
  induction r with
  | leaf a =>
    intro rs
    by_cases hc : a.network = d.network ∧ a.netmask = d.netmask ∧ a.peer = srcif
    · simp [withdraw_route, wrMatched, hc]
    · simp [withdraw_route, wrMatched, hc]
  | node a c0 c1 ih0 ih1 =>
    intro rs
    by_cases hc : a.network = d.network ∧ a.netmask = d.netmask ∧ a.peer = srcif
    · simp [withdraw_route, wrMatched, hc]
    · rw [withdraw_route, if_neg hc]
      rcases h0 : withdraw_route srcif d c0 rs with ⟨b0, rs1⟩
      have hb0 : wrMatched srcif d c0 = b0 := by rw [← ih0 rs, h0]
      cases b0 with
      | true => simp [wrMatched, hc, hb0]
      | false =>
        rcases h1 : withdraw_route srcif d c1 rs1 with ⟨b1, rs2⟩
        have hb1 : wrMatched srcif d c1 = b1 := by rw [← ih1 rs1, h1]
        cases b1 <;> simp [wrMatched, hc, hb0, hb1, h1]

/-- `withdraw_route` only appends, and it appends subtrees of the route
it examined. -/
theorem withdraw_route_snd (srcif : PyStr) (d : Descriptor) :
    ∀ (r : RouteRec) (rs : List RouteRec),
      ∃ app, (withdraw_route srcif d r rs).2 = rs ++ app
        ∧ ∀ v ∈ app, v ∈ r.subtrees := by
  intro r
  induction r with
  | leaf a =>
    intro rs
    refine ⟨[], ?_, by simp⟩
    by_cases hc : a.network = d.network ∧ a.netmask = d.netmask ∧ a.peer = srcif
    · simp [withdraw_route, hc]
    · simp [withdraw_route, hc]
  | node a c0 c1 ih0 ih1 =>
    intro rs
    by_cases hc : a.network = d.network ∧ a.netmask = d.netmask ∧ a.peer = srcif
    · exact ⟨[], by simp [withdraw_route, hc], by simp⟩
    · rw [withdraw_route, if_neg hc]
      rcases h0 : withdraw_route srcif d c0 rs with ⟨b0, rs1⟩
      rcases ih0 rs with ⟨app0, happ0, hsub0⟩
      rw [h0] at happ0
      have happ0a : rs1 = rs ++ app0 := happ0
      cases b0 with
      | true =>
        by_cases hmem : c1 ∈ rs1
        · refine ⟨app0, ?_, ?_⟩
          · show (if c1 ∈ rs1 then rs1 else rs1 ++ [c1]) = rs ++ app0
            rw [if_pos hmem]
            exact happ0a
          · intro v hv
            exact List.mem_cons_of_mem _ (List.mem_append_left _ (hsub0 v hv))
        · refine ⟨app0 ++ [c1], ?_, ?_⟩
          · show (if c1 ∈ rs1 then rs1 else rs1 ++ [c1]) = rs ++ (app0 ++ [c1])
            rw [if_neg hmem, happ0a, List.append_assoc]
          · intro v hv
            rcases List.mem_append.mp hv with hv | hv
            · exact List.mem_cons_of_mem _ (List.mem_append_left _ (hsub0 v hv))
            · rw [List.mem_singleton.mp hv]
              exact List.mem_cons_of_mem _ (List.mem_append_right _ (subtrees_self c1))
      | false =>
        rcases h1 : withdraw_route srcif d c1 rs1 with ⟨b1, rs2⟩
        rcases ih1 rs1 with ⟨app1, happ1, hsub1⟩
        rw [h1] at happ1
        have happ1a : rs2 = rs1 ++ app1 := happ1
        have happ01 : rs2 = rs ++ (app0 ++ app1) := by
          rw [happ1a, happ0a, List.append_assoc]
        have hsub01 : ∀ v ∈ app0 ++ app1, v ∈ (RouteRec.node a c0 c1).subtrees := by
          intro v hv
          rcases List.mem_append.mp hv with hv | hv
          · exact List.mem_cons_of_mem _ (List.mem_append_left _ (hsub0 v hv))
          · exact List.mem_cons_of_mem _ (List.mem_append_right _ (hsub1 v hv))
        show ∃ app,
          (match withdraw_route srcif d c1 rs1 with
            | (true, rs2) => (true, if c0 ∈ rs2 then rs2 else rs2 ++ [c0])
            | (false, rs2) => (false, rs2)).2 = rs ++ app
          ∧ ∀ v ∈ app, v ∈ (RouteRec.node a c0 c1).subtrees
        rw [h1]
        cases b1 with
        | true =>
          by_cases hmem : c0 ∈ rs2
          · refine ⟨app0 ++ app1, ?_, hsub01⟩
            show (if c0 ∈ rs2 then rs2 else rs2 ++ [c0]) = rs ++ (app0 ++ app1)
            rw [if_pos hmem]
            exact happ01
          · refine ⟨app0 ++ app1 ++ [c0], ?_, ?_⟩
            · show (if c0 ∈ rs2 then rs2 else rs2 ++ [c0]) = rs ++ (app0 ++ app1 ++ [c0])
              rw [if_neg hmem, happ01]
              simp [List.append_assoc]
            · intro v hv
              rcases List.mem_append.mp hv with hv | hv
              · exact hsub01 v hv
              · rw [List.mem_singleton.mp hv]
                exact List.mem_cons_of_mem _ (List.mem_append_left _ (subtrees_self c0))
        | false =>
          refine ⟨app0 ++ app1, ?_, hsub01⟩
          show rs2 = rs ++ (app0 ++ app1)
          exact happ01

/-! ### C4: the withdraw examination loop -/

/-- Examining one route against all descriptors appends only subtrees of
that route to the table, and collects one copy of the route per matching
descriptor — at least one when any descriptor matches. -/
theorem examine_route_spec (srcif : PyStr) (r : RouteRec) :
    ∀ (ds : List Descriptor) (routes collected : List RouteRec),
      ∃ app newc,
        examine_route srcif ds r routes collected = (routes ++ app, collected ++ newc)
        ∧ (∀ v ∈ app, v ∈ r.subtrees)
        ∧ (∀ v ∈ newc, v = r)
        ∧ ((∃ d ∈ ds, wrMatched srcif d r = true) → newc ≠ []) := by
  intro ds
  induction ds with
  | nil =>
    intro routes collected
    exact ⟨[], [], by simp [examine_route], by simp, by simp, by simp⟩
  | cons d ds' ih =>
    intro routes collected
    rcases hp : withdraw_route srcif d r routes with ⟨b, routes'⟩
    rcases withdraw_route_snd srcif d r routes with ⟨appd, happd, hsubd⟩
    rw [hp] at happd
    have happd' : routes' = routes ++ appd := happd
    have hb : wrMatched srcif d r = b := by
      rw [← withdraw_route_fst srcif d r routes, hp]
    have hstep : examine_route srcif (d :: ds') r routes collected
        = examine_route srcif ds' r routes' (if b then collected ++ [r] else collected) := by
      simp only [examine_route, List.foldl_cons, hp]
    rcases ih routes' (if b then collected ++ [r] else collected) with
      ⟨app', newc', heq, hsub', hval', hne'⟩
    cases b with
    | true =>
      refine ⟨appd ++ app', [r] ++ newc', ?_, ?_, ?_, ?_⟩
      · rw [hstep, heq, happd']
        simp [List.append_assoc]
      · intro v hv
        rcases List.mem_append.mp hv with hv | hv
        · exact hsubd v hv
        · exact hsub' v hv
      · intro v hv
        rcases List.mem_append.mp hv with hv | hv
        · exact List.mem_singleton.mp hv
        · exact hval' v hv
      · intro _
        simp
    | false =>
      refine ⟨appd ++ app', newc', ?_, ?_, hval', ?_⟩
      · rw [hstep, heq, happd']
        simp [List.append_assoc]
      · intro v hv
        rcases List.mem_append.mp hv with hv | hv
        · exact hsubd v hv
        · exact hsub' v hv
      · rintro ⟨d'', hd'', hm''⟩
        rcases List.mem_cons.mp hd'' with hd'' | hd''
        · rw [hd''] at hm''
          rw [hm''] at hb
          exact Bool.noConfusion hb
        · exact hne' ⟨d'', hd'', hm''⟩

/-- Invariants of the outer examination loop on success: the final table
extends the original with subtrees only, and every value matching some
descriptor was collected at least as often as it finally occurs. -/
theorem withdraw_loop_spec (srcif : PyStr) (ds : List Descriptor) :
    ∀ (fuel idx : Nat) (routes collected R C : List RouteRec),
      withdraw_loop srcif ds fuel idx routes collected = .ok (R, C) →
      (∀ v ∈ R, ∃ r0 ∈ routes, v ∈ r0.subtrees)
      ∧ (∀ v, (∃ d ∈ ds, wrMatched srcif d v = true) →
          C.count v + (routes.take idx).count v ≥ R.count v + collected.count v) := by
  intro fuel
  induction fuel with
  | zero =>
    intro idx routes collected R C h
    exact Except.noConfusion h
  | succ n ih =>
    intro idx routes collected R C h
    rw [withdraw_loop] at h
    by_cases hidx : idx < routes.length
    · rw [dif_pos hidx] at h
      rcases examine_route_spec srcif routes[idx] ds routes collected with
        ⟨app, newc, heq, hsub, hval, hne⟩
      rw [heq] at h
      obtain ⟨hsubR, hcount⟩ := ih (idx + 1) (routes ++ app) (collected ++ newc) R C h
      constructor
      · intro v hv
        rcases hsubR v hv with ⟨r0, hr0, hvsub⟩
        rcases List.mem_append.mp hr0 with hr0 | hr0
        · exact ⟨r0, hr0, hvsub⟩
        · exact ⟨routes[idx], List.getElem_mem hidx, subtrees_trans hvsub (hsub r0 hr0)⟩
      · intro v hmv
        have hc := hcount v hmv
        have htake : (routes ++ app).take (idx + 1) = routes.take idx ++ [routes[idx]] := by
          rw [List.take_append_of_le_length (by omega), List.take_succ,
            List.getElem?_eq_getElem hidx]
          rfl
        rw [htake, List.count_append, List.count_append] at hc
        by_cases hvr : v = routes[idx]
        · have hmatch : ∃ d ∈ ds, wrMatched srcif d routes[idx] = true := hvr ▸ hmv
          have hnnil : newc ≠ [] := hne hmatch
          have hpos : 0 < newc.count v := by
            rcases newc with _ | ⟨x, xs⟩
            · exact absurd rfl hnnil
            · have hx : x = routes[idx] := hval x (List.mem_cons_self x xs)
              have hxv : x = v := hx.trans hvr.symm
              rw [hxv, List.count_cons_self]
              omega
          have hsingle : List.count v [routes[idx]] = 1 := by
            rw [hvr]
            simp
          omega
        · have hzero : newc.count v = 0 :=
            List.count_eq_zero.mpr (fun hv => hvr (hval v hv))
          have hsingle : List.count v [routes[idx]] = 0 := by
            simp [hvr]
          omega
    · rw [dif_neg hidx] at h
      obtain ⟨hR, hC⟩ : routes = R ∧ collected = C := by
        have := h
        simp only [Except.ok.injEq, Prod.mk.injEq] at this
        exact this
      subst hR
      subst hC
      constructor
      · intro v hv
        exact ⟨v, hv, subtrees_self v⟩
      · intro v _
        rw [List.take_of_length_le (le_of_not_lt hidx)]
        omega

/-! ### C4: the removal loop -/

/-- The guarded removal fold removes exactly `min (count in collected)
(count in table)` occurrences of every value. -/
theorem remove_collected_count :
    ∀ (cs l : List RouteRec) (v : RouteRec),
      (remove_collected cs l).count v = l.count v - cs.count v := by
  intro cs
  induction cs with
  | nil =>
    intro l v
    simp [remove_collected]
  | cons c cs' ih =>
    intro l v
    have hstep : remove_collected (c :: cs') l
        = remove_collected cs' (if c ∈ l then l.erase c else l) := rfl
    rw [hstep, ih]
    by_cases hcv : c = v
    · subst hcv
      by_cases hm : c ∈ l
      · rw [if_pos hm, List.count_erase_self, List.count_cons_self]
        omega
      · have h0 : l.count c = 0 := List.count_eq_zero.mpr hm
        rw [if_neg hm, h0]
        simp
    · have hcount : (if c ∈ l then l.erase c else l).count v = l.count v := by
        by_cases hm : c ∈ l
        · rw [if_pos hm]
          exact List.count_erase_of_ne (Ne.symm hcv) l
        · rw [if_neg hm]
      rw [hcount, List.count_cons_of_ne (Ne.symm hcv)]

/-- The removal fold only removes. -/
theorem remove_collected_subset :
    ∀ (cs l : List RouteRec), ∀ v ∈ remove_collected cs l, v ∈ l := by
  intro cs
  induction cs with
  | nil =>
    intro l v hv
    exact hv
  | cons c cs' ih =>
    intro l v hv
    have hstep : remove_collected (c :: cs') l
        = remove_collected cs' (if c ∈ l then l.erase c else l) := rfl
    rw [hstep] at hv
    have hv' := ih _ v hv
    by_cases hm : c ∈ l
    · rw [if_pos hm] at hv'
      exact List.erase_subset _ _ hv'
    · rw [if_neg hm] at hv'
      exact hv'

/-! ### C4: message-level properties -/

/-- `map` on a successful `Except` computation. -/
theorem except_map_ok {α β : Type} (f : α → β) (a : α) :
    (Except.ok a : Except PyErr α).map f = .ok (f a) := rfl

/-- `map` on a failed `Except` computation. -/
theorem except_map_err {α β : Type} (f : α → β) (e : PyErr) :
    (Except.error e : Except PyErr α).map f = .error e := rfl

/-- After a successful withdraw message, no top-level tree contains any
node matching any of the message's descriptors, and every top-level tree
is a subtree of a previously top-level tree. -/
theorem handle_withdraw_clears (s : RState) (srcif : PyStr) (m : WithdrawMsg)
    (s' : RState) (sends : List (PyStr × OutMsg))
    (h : handle_withdraw_msg s srcif m = .ok (s', sends)) :
    (∀ d ∈ m.payload, ∀ r ∈ s'.routes, wrMatched srcif d r = false)
    ∧ (∀ v ∈ s'.routes, ∃ r0 ∈ s.routes, v ∈ r0.subtrees) := by
  unfold handle_withdraw_msg at h
  cases hw : withdraw_loop srcif m.payload (withdraw_fuel s.routes) 0 s.routes [] with
  | error e =>
    rw [hw, except_bind_err] at h
    exact Except.noConfusion h
  | ok st =>
    rcases st with ⟨R, C⟩
    rw [hw, except_bind_ok] at h
    simp only [Except.ok.injEq, Prod.mk.injEq] at h
    have hroutes : s'.routes = remove_collected C R := by rw [← h.1]
    obtain ⟨hsubR, hcount⟩ := withdraw_loop_spec srcif m.payload _ 0 s.routes [] R C hw
    constructor
    · intro d hd r hr
      by_contra hmm
      rw [Bool.not_eq_false] at hmm
      have hc := hcount r ⟨d, hd, hmm⟩
      simp only [List.take_zero, List.count_nil] at hc
      have h0 : (remove_collected C R).count r = 0 := by
        rw [remove_collected_count]
        omega
      rw [hroutes] at hr
      exact (List.count_eq_zero.mp h0) hr
    · intro v hv
      rw [hroutes] at hv
      exact hsubR v (remove_collected_subset C R v hv)

/-! ### C4: processing a run of messages -/

theorem process_cons (s : RState) (msg : InMsg) (rest : List InMsg) (final : RState)
    (h : process s (msg :: rest) = .ok final) :
    ∃ s1, handle_one s msg = .ok s1 ∧ process s1 rest = .ok final := by
  rw [process] at h
  cases h1 : handle_one s msg with
  | error e =>
    rw [h1, except_bind_err] at h
    exact Except.noConfusion h
  | ok s1 =>
    rw [h1, except_bind_ok] at h
    exact ⟨s1, rfl, h⟩

theorem process_append_split (l1 : List InMsg) :
    ∀ (s final : RState) (l2 : List InMsg),
      process s (l1 ++ l2) = .ok final →
      ∃ mid, process s l1 = .ok mid ∧ process mid l2 = .ok final := by
  induction l1 with
  | nil =>
    intro s final l2 h
    exact ⟨s, rfl, h⟩
  | cons msg l1' ih =>
    intro s final l2 h
    rw [List.cons_append] at h
    rcases process_cons s msg (l1' ++ l2) final h with ⟨s1, h1, h2⟩
    rcases ih s1 final l2 h2 with ⟨mid, hm1, hm2⟩
    refine ⟨mid, ?_, hm2⟩
    rw [process, h1, except_bind_ok]
    exact hm1

/-- Through a run of updates, every table leaf is either an original leaf
or one of the announced (network, netmask, peer) identities. -/
theorem process_updates_leaves (us : List (PyStr × UpdateMsg)) :
    ∀ (s s' : RState),
      process s (us.map (fun p => InMsg.update p.1 p.2)) = .ok s' →
      ∀ a, LeafIn a s'.routes →
        LeafIn a s.routes
        ∨ (a.network, a.netmask, a.peer)
            ∈ us.map (fun p => (p.2.network, p.2.netmask, p.2.src)) := by
  induction us with
  | nil =>
    intro s s' h a ha
    cases h
    exact Or.inl ha
  | cons u us' ih =>
    intro s s' h a ha
    rw [List.map_cons] at h
    rcases process_cons _ _ _ _ h with ⟨s1, h1, h2⟩
    rcases hh : handle_update_msg s u.1 u.2 with _ | ⟨s1', sends⟩
    · rw [handle_one, hh, except_map_err] at h1
      exact Except.noConfusion h1
    · rw [handle_one, hh, except_map_ok] at h1
      have hs1 : s1' = s1 := by simpa using h1
      subst hs1
      rcases ih s1' s' h2 a ha with hcase | hcase
      · rcases (handle_update_leafin s u.1 u.2 s1' sends hh a).mp hcase with hcase' | hcase'
        · exact Or.inl hcase'
        · refine Or.inr (List.mem_map.mpr ⟨u, List.mem_cons_self u us', ?_⟩)
          rcases u with ⟨srcif, m⟩
          cases m
          rw [hcase']
          rfl
      · exact Or.inr (List.mem_cons_of_mem _ hcase)

/-- Through a run of withdraws, every top-level tree is a subtree of one
of the starting trees. -/
theorem process_withdraws_subtrees (ws : List (PyStr × WithdrawMsg)) :
    ∀ (s s' : RState),
      process s (ws.map (fun p => InMsg.withdraw p.1 p.2)) = .ok s' →
      ∀ v ∈ s'.routes, ∃ r0 ∈ s.routes, v ∈ r0.subtrees := by
  induction ws with
  | nil =>
    intro s s' h v hv
    cases h
    exact ⟨v, hv, subtrees_self v⟩
  | cons w ws' ih =>
    intro s s' h v hv
    rw [List.map_cons] at h
    rcases process_cons _ _ _ _ h with ⟨s1, h1, h2⟩
    rcases hh : handle_withdraw_msg s w.1 w.2 with _ | ⟨s1', sends⟩
    · rw [handle_one, hh, except_map_err] at h1
      exact Except.noConfusion h1
    · rw [handle_one, hh, except_map_ok] at h1
      have hs1 : s1' = s1 := by simpa using h1
      subst hs1
      rcases ih s1' s' h2 v hv with ⟨r1, hr1, hsub1⟩
      rcases (handle_withdraw_clears s w.1 w.2 s1' sends hh).2 r1 hr1 with ⟨r0, hr0, hsub0⟩
      exact ⟨r0, hr0, subtrees_trans hsub1 hsub0⟩

/-- A "no tree matches the descriptor" state survives any further run of
withdraws. -/
theorem process_withdraws_preserve (d : Descriptor) (p : PyStr)
    (ws : List (PyStr × WithdrawMsg)) :
    ∀ (s s' : RState),
      process s (ws.map (fun q => InMsg.withdraw q.1 q.2)) = .ok s' →
      (∀ r ∈ s.routes, wrMatched p d r = false) →
      (∀ r ∈ s'.routes, wrMatched p d r = false) := by
  induction ws with
  | nil =>
    intro s s' h hP
    cases h
    exact hP
  | cons w ws' ih =>
    intro s s' h hP
    rw [List.map_cons] at h
    rcases process_cons _ _ _ _ h with ⟨s1, h1, h2⟩
    rcases hh : handle_withdraw_msg s w.1 w.2 with _ | ⟨s1', sends⟩
    · rw [handle_one, hh, except_map_err] at h1
      exact Except.noConfusion h1
    · rw [handle_one, hh, except_map_ok] at h1
      have hs1 : s1' = s1 := by simpa using h1
      subst hs1
      refine ih s1' s' h2 ?_
      intro r' hr'
      rcases (handle_withdraw_clears s w.1 w.2 s1' sends hh).2 r' hr' with ⟨r0, hr0, hsub⟩
      by_contra hbb
      rw [Bool.not_eq_false] at hbb
      have hup := wrMatched_subtree hsub hbb
      rw [hP r0 hr0] at hup
      exact Bool.noConfusion hup

/-! ### C4 -/

/-- **C4.**  For every run of update messages followed by withdraw
messages whose descriptors withdraw exactly the announced leaves
(multiset-equal (network, netmask, announcing peer) triples), if the
whole run processes without crashing then the final routing table is
empty: every leaf is matched by the withdraw message carrying its
descriptor, the enclosing aggregates are torn down and removed, and what
disaggregation re-exposes is removed by the remaining withdraws. -/
theorem C4_withdraw_reversibility (asn : Nat) (rels : List (PyStr × PyStr))
    (updates : List (PyStr × UpdateMsg)) (withdraws : List (PyStr × WithdrawMsg))
    (final : RState)
    (hexact : updateTriples updates = withdrawTriples withdraws)
    (hok : process (initState asn rels)
      (updates.map (fun p => InMsg.update p.1 p.2)
        ++ withdraws.map (fun p => InMsg.withdraw p.1 p.2)) = .ok final) :
    final.routes = [] := by
  rcases process_append_split _ _ _ _ hok with ⟨mid, hu, hw⟩
  by_contra hne
  obtain ⟨r, hr⟩ : ∃ r, r ∈ final.routes := by
    rcases hfr : final.routes with _ | ⟨r, rest⟩
    · exact absurd hfr hne
    · exact ⟨r, hfr ▸ List.mem_cons_self r rest⟩
  obtain ⟨a, ha⟩ : ∃ a, a ∈ r.leaves := by
    rcases hl : r.leaves with _ | ⟨a, t⟩
    · exact absurd hl (leaves_ne_nil r)
    · exact ⟨a, hl ▸ List.mem_cons_self a t⟩
  have hmid : LeafIn a mid.routes := by
    rcases process_withdraws_subtrees withdraws mid final hw r hr with ⟨r0, hr0, hsub⟩
    exact ⟨r0, hr0, leaves_subtree hsub ha⟩
  have htriple : (a.network, a.netmask, a.peer)
      ∈ updates.map (fun p => (p.2.network, p.2.netmask, p.2.src)) := by
    rcases process_updates_leaves updates _ mid hu a hmid with hcase | hcase
    · rcases hcase with ⟨r0, hr0, -⟩
      exact absurd hr0 (List.not_mem_nil r0)
    · exact hcase
  have hwd : (a.network, a.netmask, a.peer)
      ∈ withdraws.flatMap (fun p => p.2.payload.map (fun d => (d.network, d.netmask, p.1))) := by
    have h1 : (a.network, a.netmask, a.peer) ∈ updateTriples updates :=
      Multiset.mem_coe.mpr htriple
    rw [hexact] at h1
    exact Multiset.mem_coe.mp h1
  rcases List.mem_flatMap.mp hwd with ⟨pw, hpw, hdesc⟩
  rcases List.mem_map.mp hdesc with ⟨dsc, hdsc, htrip⟩
  obtain ⟨e1, e2, e3⟩ : dsc.network = a.network ∧ dsc.netmask = a.netmask ∧ pw.1 = a.peer := by
    simpa [Prod.ext_iff] using htrip
  rcases List.append_of_mem hpw with ⟨ws1, ws2, hsplit⟩
  rw [hsplit, List.map_append, List.map_cons] at hw
  rcases process_append_split _ _ _ _ hw with ⟨s1, _hw1, hw2⟩
  rcases process_cons _ _ _ _ hw2 with ⟨s2, hmsg, hw3⟩
  rcases hh : handle_withdraw_msg s1 pw.1 pw.2 with _ | ⟨s2', sends⟩
  · rw [handle_one, hh, except_map_err] at hmsg
    exact Except.noConfusion hmsg
  · rw [handle_one, hh, except_map_ok] at hmsg
    have hs2 : s2' = s2 := by simpa using hmsg
    subst hs2
    have hclear := (handle_withdraw_clears s1 pw.1 pw.2 s2' sends hh).1 dsc hdsc
    have hfinal : ∀ r' ∈ final.routes, wrMatched pw.1 dsc r' = false :=
      process_withdraws_preserve dsc pw.1 ws2 s2' final hw3 hclear
    have hmatch : wrMatched pw.1 dsc r = true :=
      leaf_wrMatched ha e1.symm e2.symm e3.symm
    rw [hfinal r hr] at hmatch
    exact Bool.noConfusion hmatch

/-- The final state of the C4 witness run: one update, then the matching
withdraw. -/
def finalC4 : RState :=
  { asn := 7
    relations := nbrs
    updates := [.update cexU,
      .withdraw ⟨"192.168.2.1".data, "192.168.2.2".data, cexW.payload⟩]
    routes := [] }

/-- Witness for `C4_withdraw_reversibility`: announcing `10.0.0.0/24` and
then withdrawing it leaves an empty table. -/
theorem C4_witness : finalC4.routes = [] :=
  C4_withdraw_reversibility 7 nbrs
    [("192.168.1.2".data, cexU)] [("192.168.1.2".data, cexW)] finalC4
    (by rfl) (by decide)

end BgpRouter
